import Mathlib

/-!
Shallow embedding of the wealdtech/go-merkletree core (the v2-style API:
`NewTree`, `GenerateProof`, `GenerateMultiProof`, `Pollard`,
`VerifyProofUsing`, `VerifyMultiProofUsing`) together with theorems that
settle the specification claims.

Byte strings (`[]byte`) are modelled as `List Nat`; a hash provider
(`HashType`) is a structure carrying the variadic hash function and the
digest length.  Go maps become functions `Nat → Option Bytes` with explicit
insert/erase, and the in-place mutation performed by `VerifyMultiProofUsing`
is modelled by returning the final map alongside the verdict.  Go `while`
loops over a strictly decreasing index are written with an explicit fuel
argument (the starting index itself is always enough fuel, since the index
at least halves each iteration); this keeps every definition structurally
recursive and hence evaluable by `decide`.
-/

/-- A byte string (`[]byte` in Go).  Bytes are `Nat`s; the code only ever
compares bytes, so the 0..255 bound is irrelevant to the embedding. -/
abbrev Bytes := List Nat

/-- `bytes.Compare`: lexicographic comparison, a proper prefix is smaller. -/
def bytesCompare : Bytes → Bytes → Ordering
  | [], [] => .eq
  | [], _ :: _ => .lt
  | _ :: _, [] => .gt
  | a :: as, b :: bs =>
      if a < b then .lt else if b < a then .gt else bytesCompare as bs

/-- `binary.BigEndian.PutUint32` of `uint32(i)`: the 4-byte big-endian
representation of `i mod 2^32`. -/
def be32 (i : Nat) : Bytes :=
  [i / 2 ^ 24 % 256, i / 2 ^ 16 % 256, i / 2 ^ 8 % 256, i % 256]

/-- A hash provider (`HashType` in hash.go): a variadic hash function
`Hash(data ...[]byte) []byte` plus `HashLength()`.  `HashName()` is only
used by the JSON encoding collaborator and is omitted. -/
structure HashTy where
  hashFn : List Bytes → Bytes
  hashLength : Nat

/-- The digest placed in a leaf slot for `value` at index `i`:
`hash.Hash(data[i])`, or `hash.Hash(data[i], indexSalt)` when salting
(createLeaves in merkletree.go; the same expression is recomputed by the
verifiers). -/
def leafDigest (h : HashTy) (salt : Bool) (value : Bytes) (i : Nat) : Bytes :=
  if salt then h.hashFn [value, be32 i] else h.hashFn [value]

/-- One step of the `hashSorter` insertion: place pair `p` before the first
element whose hash is not smaller.  Models the effect of `sort.Sort` with
`Less i j = (bytes.Compare(hashes[i], hashes[j]) == -1)`; Go's quicksort is
unstable, but on pairwise-distinct hashes every correct sort produces the
same list, and the claims only exercise the sorted path at concrete inputs
with distinct hashes. -/
def insertByHash (p : Bytes × Bytes) : List (Bytes × Bytes) → List (Bytes × Bytes)
  | [] => [p]
  | q :: rest =>
      if bytesCompare p.2 q.2 = .gt then q :: insertByHash p rest else p :: q :: rest

/-- Sort `(data, hash)` pairs by hash value (insertion sort). -/
def sortByHash : List (Bytes × Bytes) → List (Bytes × Bytes)
  | [] => []
  | p :: rest => insertByHash p (sortByHash rest)

/-- The `(data[i], leaf digest of data[i])` pairs, in input order. -/
def leafPairs (h : HashTy) (salt : Bool) (data : List Bytes) : List (Bytes × Bytes) :=
  (List.range data.length).map fun i =>
    (data.getD i [], leafDigest h salt (data.getD i []) i)

/-- `createLeaves` (merkletree.go): hash each value (salting with its index
when requested) and, when `sorted`, sort data and digests together by
digest value.  Returned as the list of `(data, digest)` pairs, reflecting
that the Go code permutes `data` and `dest` in lockstep. -/
def createLeaves (h : HashTy) (salt sorted : Bool) (data : List Bytes) :
    List (Bytes × Bytes) :=
  if sorted then sortByHash (leafPairs h salt data) else leafPairs h salt data

/-- Fueled ceiling log₂: `clog2F f n` computes `⌈log₂ n⌉` provided `n ≤ f`. -/
def clog2F : Nat → Nat → Nat
  | 0, _ => 0
  | f + 1, n => if n ≤ 1 then 0 else clog2F f ((n + 1) / 2) + 1

/-- `int(math.Ceil(math.Log2(float64(n))))` for `n ≥ 1`: the ceiling of
log₂ `n` (the floating-point computation is exact for the sizes in play). -/
def clog2 (n : Nat) : Nat := clog2F n n

/-- The Merkle tree structure (merkletree.go): configuration flags, the hash
provider, the (possibly sorted-permuted) data, and the 1-indexed node array
of length `2N`. -/
structure MerkleTree where
  Salt : Bool
  Sorted : Bool
  Hash : HashTy
  Data : List Bytes
  Nodes : List Bytes

/-- The branch combination step of `createBranches`: hash the two children,
swapping them when `sorted` is set and `left > right`. -/
def combineBranch (h : HashTy) (sorted : Bool) (left right : Bytes) : Bytes :=
  if sorted && bytesCompare left right == .gt
  then h.hashFn [right, left] else h.hashFn [left, right]

/-- `createBranches` (merkletree.go): the loop
`for i := leafOffset-1; i > 0; i-- { nodes[i] = combine(nodes[2i], nodes[2i+1]) }`,
written as recursion on the loop counter. -/
def branchesFrom (h : HashTy) (sorted : Bool) : Nat → List Bytes → List Bytes
  | 0, nodes => nodes
  | i + 1, nodes =>
      branchesFrom h sorted i
        (nodes.set (i + 1)
          (combineBranch h sorted (nodes.getD (2 * (i + 1)) [])
            (nodes.getD (2 * (i + 1) + 1) [])))

/-- `NewTree` (merkletree.go): validate parameters (the hash provider is
passed as an actual provider, matching `WithHashType` with a non-nil value;
`parseAndCheckTreeParameters` then fails exactly when the data list is
empty), pad the leaf count to the next power of two, lay out
`[branches, leaves, zero padding]` and fill the branches. -/
def NewTree (data : List Bytes) (salt sorted : Bool) (h : HashTy) :
    Except String MerkleTree :=
  if data.isEmpty then .error "tree must have at least 1 piece of data"
  else
    let branchesLen := 2 ^ clog2 data.length
    let pairs := createLeaves h salt sorted data
    let nodes0 : List Bytes :=
      List.replicate branchesLen [] ++ pairs.map Prod.snd ++
        List.replicate (branchesLen - data.length) (List.replicate h.hashLength 0)
    .ok
      { Salt := salt
        Sorted := sorted
        Hash := h
        Data := pairs.map Prod.fst
        Nodes := branchesFrom h sorted (branchesLen - 1) nodes0 }

/-- `Root` (merkletree.go): `t.Nodes[1]`. -/
def MerkleTree.Root (t : MerkleTree) : Bytes := t.Nodes.getD 1 []

/-- `Pollard` (merkletree.go): `t.Nodes[1:2^(height+1)]`. -/
def MerkleTree.Pollard (t : MerkleTree) (height : Nat) : List Bytes :=
  (t.Nodes.take (2 ^ (height + 1))).drop 1

/-- `indexOf` (merkletree.go): index of the first element of `Data` that is
byte-equal to the input, or `none` (Go returns `(0, error)`). -/
def indexOfData : List Bytes → Bytes → Option Nat
  | [], _ => none
  | d :: rest, v => if d = v then some 0 else (indexOfData rest v).map (· + 1)

/-- A single proof (proof.go): sibling hashes from the leaf up, plus the
0-based index of the proven value in `Data`. -/
structure Proof where
  Hashes : List Bytes
  Index : Nat
deriving DecidableEq

/-- Outcome of `GenerateProof`: a proof, a returned error, or a Go runtime
panic (`make` with negative length). -/
inductive GPResult
  | ok (p : Proof)
  | dataNotFound
  | panic
deriving DecidableEq

/-- The index sequence of the upward walk
`for j := start; j > minI; j /= 2`, with explicit fuel (fuel `start` always
suffices: the index at least halves every iteration). -/
def walkChain (minI : Nat) : Nat → Nat → List Nat
  | 0, _ => []
  | fuel + 1, i => if minI < i then i :: walkChain minI fuel (i / 2) else []

/-- `GenerateProof` (merkletree.go).  `proofLen` is computed as an integer
and `make([][]byte, proofLen)` panics when it is negative; otherwise the
walk from `index + len(Nodes)/2` down to the pollard boundary collects the
sibling hash `Nodes[i^1]` at each step (the loop performs exactly
`proofLen` iterations, so collecting into a list is equivalent to filling
the preallocated slice). -/
def GenerateProof (t : MerkleTree) (data : Bytes) (height : Nat) : GPResult :=
  match indexOfData t.Data data with
  | none => .dataNotFound
  | some index =>
      let proofLen : Int := (clog2 t.Data.length : Int) - (height : Int)
      if proofLen < 0 then .panic
      else
        let start := index + t.Nodes.length / 2
        .ok
          { Hashes :=
              (walkChain (2 ^ (height + 1) - 1) start start).map
                (fun j => t.Nodes.getD (j ^^^ 1) [])
            Index := index }

/-- The combining loop of `generateProofHash` (proof.go): fold the sibling
hashes into the running digest, ordering by the parity of the tracked index
(`index%2 == 0` puts the running digest first), halving the index each
step. -/
def gphGo (h : HashTy) : Bytes → Nat → List Bytes → Bytes
  | cur, _, [] => cur
  | cur, index, sib :: rest =>
      gphGo h
        (if index % 2 = 0 then h.hashFn [cur, sib] else h.hashFn [sib, cur])
        (index / 2) rest

/-- `generateProofHash` (proof.go): recompute the leaf digest (salted with
`be32(proof.Index)` when requested), then fold in the sibling hashes
starting from `index = proof.Index + 2^len(proof.Hashes)`. -/
def generateProofHash (data : Bytes) (salt : Bool) (proof : Proof) (h : HashTy) :
    Bytes :=
  gphGo h (leafDigest h salt data proof.Index)
    (proof.Index + 2 ^ proof.Hashes.length) proof.Hashes

/-- `VerifyProofUsing` (proof.go): recompute the proof hash and compare it
with the entries `pollard[len-1-i]` for `i < len(pollard)/2 + 1`, i.e. the
last rank of the pollard; true iff some entry matches. -/
def VerifyProofUsing (data : Bytes) (salt : Bool) (proof : Proof)
    (pollard : List Bytes) (h : HashTy) : Bool :=
  let proofHash := generateProofHash data salt proof h
  (List.range (pollard.length / 2 + 1)).any
    (fun i => pollard.getD (pollard.length - 1 - i) [] == proofHash)

/-- A multiproof (multiproof.go): padded leaf count, the sparse
node-index-keyed hash map, and the proven leaf indices. -/
structure MultiProof where
  Values : Nat
  Hashes : Nat → Option Bytes
  Indices : List Nat

/-- Map insert (`m[k] = v` on a Go map). -/
def mpInsert (m : Nat → Option Bytes) (k : Nat) (v : Bytes) : Nat → Option Bytes :=
  fun j => if j = k then some v else m j

/-- Map erase (`delete(m, k)` on a Go map). -/
def mpErase (m : Nat → Option Bytes) (k : Nat) : Nat → Option Bytes :=
  fun j => if j = k then none else m j

/-- The empty map. -/
def mpEmpty : Nat → Option Bytes := fun _ => none

/-- `calculatedIndices` as a predicate, with `c[j] = true` insertion. -/
def calcInsert (c : Nat → Bool) (k : Nat) : Nat → Bool :=
  fun j => if j = k then true else c j

/-- Step 2 of `GenerateMultiProof` (merkletree.go), inner loop for one
proof: `for j := index + half; j > 1; j /= 2` assigns
`proofHashes[j^1] = hashes[i][hashNum]` and `calculatedIndices[j] = true`,
incrementing `hashNum`.  Fueled like `walkChain`. -/
def mpAssignWalk (hs : List Bytes) :
    Nat → Nat → Nat → (Nat → Option Bytes) × (Nat → Bool) →
      (Nat → Option Bytes) × (Nat → Bool)
  | 0, _, _, mc => mc
  | fuel + 1, j, hashNum, (m, c) =>
      if 1 < j then
        mpAssignWalk hs fuel (j / 2) (hashNum + 1)
          (mpInsert m (j ^^^ 1) (hs.getD hashNum []), calcInsert c j)
      else (m, c)

/-- Step 3 of `GenerateMultiProof`, inner loop for one index: walk the same
chain and `delete(proofHashes, j^1)` whenever `calculatedIndices[j^1]`. -/
def mpDeleteWalk (c : Nat → Bool) :
    Nat → Nat → (Nat → Option Bytes) → Nat → Option Bytes
  | 0, _, m => m
  | fuel + 1, j, m =>
      if 1 < j then
        mpDeleteWalk c fuel (j / 2) (if c (j ^^^ 1) then mpErase m (j ^^^ 1) else m)
      else m

/-- Step 1 of `GenerateMultiProof`: generate the individual proofs
(`GenerateProof(data[i], 0)`), propagating a `data not found` error.
A negative-length panic cannot happen at height 0 (`proofLen = ⌈log₂ n⌉ ≥ 0`),
so it is mapped to the error case as unreachable. -/
def collectSingles (t : MerkleTree) : List Bytes → Option (List (List Bytes × Nat))
  | [] => some []
  | v :: rest =>
      match GenerateProof t v 0 with
      | .ok p => (collectSingles t rest).map ((p.Hashes, p.Index) :: ·)
      | _ => none

/-- Modelled from the spec: `NewMultiProof` is called by
`GenerateMultiProof` (src/merkletree.go) but its definition is not among
the sources; per §4.4 step 4 it packages the pruned hash map, the proven
leaf indices and the padded leaf count into a `MultiProof`, validating the
parameters exactly as `parseAndCheckMultiProofParameters`
(src/parameters.go) prescribes: the values count must be non-zero and the
indices list non-empty. -/
def NewMultiProof (hashes : Nat → Option Bytes) (indices : List Nat)
    (values : Nat) : Except String MultiProof :=
  if values = 0 then .error "no values specified"
  else if indices.isEmpty then .error "no indices specified"
  else .ok { Values := values, Hashes := hashes, Indices := indices }

/-- `GenerateMultiProof` (merkletree.go): generate the individual proofs,
union their hashes into a node-indexed map while marking every walked node
as calculable, then delete every hash whose key is itself a walked node,
and package the result. -/
def GenerateMultiProof (t : MerkleTree) (vs : List Bytes) :
    Except String MultiProof :=
  match collectSingles t vs with
  | none => .error "data not found"
  | some pairs =>
      let half := (t.Nodes.length + 1) / 2
      let mc :=
        pairs.foldl
          (fun mc p => mpAssignWalk p.1 (p.2 + half) (p.2 + half) 0 mc)
          (mpEmpty, fun _ => false)
      let pruned :=
        pairs.foldl (fun m p => mpDeleteWalk mc.2 (p.2 + half) (p.2 + half) m) mc.1
      NewMultiProof pruned (pairs.map Prod.snd) (t.Nodes.length / 2)

/-- Step 1 of `VerifyMultiProofUsing` (multiproof.go): for each proven
index, recompute the leaf digest from the supplied value (salted with the
index when requested) and insert it at key `index + Values`.  The fold is
over the index list paired with its position (`for i, index := range`). -/
def mpLeafInserts (h : HashTy) (salt : Bool) (data : List Bytes) (values : Nat) :
    Nat → List Nat → (Nat → Option Bytes) → Nat → Option Bytes
  | _, [], m => m
  | i, index :: rest, m =>
      mpLeafInserts h salt data values (i + 1) rest
        (mpInsert m (index + values) (leafDigest h salt (data.getD i []) index))

/-- Step 2 of `VerifyMultiProofUsing`: `for i := Values-1; i > 0; i--`,
inserting `Hashes[i] = Hash(Hashes[2i], Hashes[2i+1])` whenever `i` is
absent and both children are present. -/
def mpCompute (h : HashTy) : Nat → (Nat → Option Bytes) → Nat → Option Bytes
  | 0, m => m
  | i + 1, m =>
      mpCompute h i
        (match m (i + 1) with
         | some _ => m
         | none =>
             match m (2 * (i + 1)), m (2 * (i + 1) + 1) with
             | some c1, some c2 => mpInsert m (i + 1) (h.hashFn [c1, c2])
             | _, _ => m)

/-- `VerifyMultiProofUsing` (multiproof.go).  The Go function mutates
`proof.Hashes` in place; the embedding threads the map explicitly and
returns the final map together with the verdict
(`bytes.Equal(proof.Hashes[1], root)`, a missing entry reading as nil). -/
def VerifyMultiProofUsing (data : List Bytes) (salt : Bool) (proof : MultiProof)
    (root : Bytes) (h : HashTy) : Bool × (Nat → Option Bytes) :=
  let m1 := mpLeafInserts h salt data proof.Values 0 proof.Indices proof.Hashes
  let m2 := mpCompute h (proof.Values - 1) m1
  (decide ((m2 1).getD [] = root), m2)

/-- Follows the spec's words (§4.2): the combining step of proof
verification with the `sorted` rule — "always place the lexicographically
smaller digest first" when `sorted` is enabled, parity order otherwise.
Used only to compare the code's verifier against the specified one. -/
def gphSpecSorted (h : HashTy) (sorted : Bool) : Bytes → Nat → List Bytes → Bytes
  | cur, _, [] => cur
  | cur, index, sib :: rest =>
      gphSpecSorted h sorted
        (if sorted then
          (if bytesCompare cur sib = .gt then h.hashFn [sib, cur]
           else h.hashFn [cur, sib])
         else if index % 2 = 0 then h.hashFn [cur, sib] else h.hashFn [sib, cur])
        (index / 2) rest

/-- Follows the spec's words (§4.2): `generateProofHash` with the `sorted`
ordering rule applied. -/
def generateProofHashSpec (sorted : Bool) (data : Bytes) (salt : Bool)
    (proof : Proof) (h : HashTy) : Bytes :=
  gphSpecSorted h sorted (leafDigest h salt data proof.Index)
    (proof.Index + 2 ^ proof.Hashes.length) proof.Hashes

/-- Follows the spec's words (§4.2): `VerifyProofUsing` with the `sorted`
ordering rule applied in the recomputation. -/
def VerifyProofUsingSpec (sorted : Bool) (data : Bytes) (salt : Bool)
    (proof : Proof) (pollard : List Bytes) (h : HashTy) : Bool :=
  let proofHash := generateProofHashSpec sorted data salt proof h
  (List.range (pollard.length / 2 + 1)).any
    (fun i => pollard.getD (pollard.length - 1 - i) [] == proofHash)

/-- The number of entries of a node-indexed hash map whose keys lie below
`bound` (every key ever inserted by the multiproof code is below the node
count, so this is the map's size). -/
def mapCard (m : Nat → Option Bytes) (bound : Nat) : Nat :=
  ((Finset.range bound).filter fun k => (m k).isSome = true).card

/-- The node array a successful `NewTree` starts from, before branch
filling. -/
def nodes0Of (data : List Bytes) (salt sorted : Bool) (h : HashTy) : List Bytes :=
  List.replicate (2 ^ clog2 data.length) [] ++
    (createLeaves h salt sorted data).map Prod.snd ++
      List.replicate (2 ^ clog2 data.length - data.length)
        (List.replicate h.hashLength 0)

/-- A node index lies on the upward walk of one of the proven leaves. -/
def onWalkP (pairs : List (List Bytes × Nat)) (half L x : Nat) : Prop :=
  ∃ p ∈ pairs, ∃ k, k < L ∧ x = (p.2 + half) / 2 ^ k

/-- A node index is the sibling of a walk node. -/
def sibKeyP (pairs : List (List Bytes × Nat)) (half L x : Nat) : Prop :=
  ∃ p ∈ pairs, ∃ k, k < L ∧ x = ((p.2 + half) / 2 ^ k) ^^^ 1


/-- A concrete toy hash provider used for the concrete instances: the digest
of a part list is the concatenation of the parts.  `HashType` is an
interface, so any provider is a legitimate configuration. -/
def concatHash : HashTy := { hashFn := fun parts => parts.flatten, hashLength := 1 }

/-- Extract the tree from a construction result (defaulting to a dummy). -/
def treeOfD (r : Except String MerkleTree) : MerkleTree :=
  r.toOption.getD { Salt := false, Sorted := false, Hash := concatHash, Data := [], Nodes := [] }

/-- Extract the proof from a `GenerateProof` result (defaulting to a dummy). -/
def proofOfD (r : GPResult) : Proof :=
  match r with
  | .ok p => p
  | _ => { Hashes := [], Index := 0 }

/-- Extract the multiproof from a result (defaulting to a dummy). -/
def mpOfD (r : Except String MultiProof) : MultiProof :=
  r.toOption.getD { Values := 0, Hashes := mpEmpty, Indices := [] }

/-- A sorted tree over four values whose root-level children were swapped by
`createBranches` (with `concatHash`, node 2 is `[1,1,1]` and node 3 is
`[1,1,0,2]`, so the sorted rule reverses them). -/
def sortedTreeEx : MerkleTree :=
  treeOfD (NewTree [[1], [1, 1], [1, 1, 0], [2]] false true concatHash)

/-- The single proof for value `[1]` in the sorted example tree. -/
def sortedProofEx : Proof := proofOfD (GenerateProof sortedTreeEx [1] 0)

/-- The multiproof for the singleton subset `[[1]]` of the sorted tree. -/
def sortedMpEx : MultiProof := mpOfD (GenerateMultiProof sortedTreeEx [[1]])

/-- An unsorted tree over four values, used as concrete witness input. -/
def unsortedTreeEx : MerkleTree :=
  treeOfD (NewTree [[1], [2], [3], [4]] false false concatHash)

/-- The height-1 proof for value `[3]` in the unsorted example tree. -/
def unsortedProofEx : Proof := proofOfD (GenerateProof unsortedTreeEx [3] 1)

/-- The multiproof for subset `[[1],[2]]` of the unsorted tree (the two
leaves share the internal node 2 on their proof paths). -/
def unsortedMpEx : MultiProof := mpOfD (GenerateMultiProof unsortedTreeEx [[1], [2]])

/-- A two-leaf unsorted tree. -/
def smallTreeEx : MerkleTree := treeOfD (NewTree [[1], [2]] false false concatHash)

/-- The multiproof of `smallTreeEx` queried in reverse data order. -/
def reverseMpEx : MultiProof := mpOfD (GenerateMultiProof smallTreeEx [[2], [1]])

/-! ### Arithmetic helpers -/

theorem xor_one_of_even (n : Nat) (h : n % 2 = 0) : n ^^^ 1 = n + 1 := by
  apply Nat.eq_of_testBit_eq
  intro i
  rw [Nat.testBit_xor]
  cases i with
  | zero =>
      rw [Nat.testBit_zero, Nat.testBit_zero, Nat.testBit_zero]
      have h1 : (n + 1) % 2 = 1 := by omega
      simp [h, h1]
  | succ i =>
      rw [Nat.testBit_succ, Nat.testBit_succ, Nat.testBit_succ]
      have h2 : (n + 1) / 2 = n / 2 := by omega
      simp [h2]

theorem xor_one_of_odd (n : Nat) (h : n % 2 = 1) : n ^^^ 1 = n - 1 := by
  apply Nat.eq_of_testBit_eq
  intro i
  rw [Nat.testBit_xor]
  cases i with
  | zero =>
      rw [Nat.testBit_zero, Nat.testBit_zero, Nat.testBit_zero]
      have h1 : (n - 1) % 2 = 0 := by omega
      simp [h, h1]
  | succ i =>
      rw [Nat.testBit_succ, Nat.testBit_succ, Nat.testBit_succ]
      have h2 : (n - 1) / 2 = n / 2 := by omega
      simp [h2]

theorem clog2F_eq (f : Nat) : ∀ n, n ≤ f → clog2F f n = Nat.clog 2 n := by
  induction f with
  | zero =>
      intro n hn
      have : n = 0 := by omega
      subst this
      simp [clog2F, Nat.clog_of_right_le_one]
  | succ f ih =>
      intro n hn
      by_cases h1 : n ≤ 1
      · simp [clog2F, h1, Nat.clog_of_right_le_one h1]
      · have h2 : 2 ≤ n := by omega
        rw [clog2F, if_neg h1, ih ((n + 1) / 2) (by omega),
          Nat.clog_of_two_le (by norm_num) h2]
        have h3 : n + 2 - 1 = n + 1 := by omega
        rw [h3]

theorem clog2_eq (n : Nat) : clog2 n = Nat.clog 2 n := clog2F_eq n n le_rfl

theorem le_pow_clog2 (n : Nat) : n ≤ 2 ^ clog2 n := by
  rw [clog2_eq]
  exact Nat.le_pow_clog one_lt_two n

theorem clog2_le_of_le_pow {n m : Nat} (h : n ≤ 2 ^ m) : clog2 n ≤ m := by
  rw [clog2_eq]
  exact (Nat.le_pow_iff_clog_le one_lt_two).1 h

theorem pow_clog2_lt (n : Nat) (hn : 1 ≤ n) : 2 ^ clog2 n < 2 * n := by
  by_contra hc
  push_neg at hc
  have hL : 1 ≤ clog2 n := by
    by_contra hL
    push_neg at hL
    interval_cases h : clog2 n <;> simp [h] at hc <;> omega
  have h2 : n ≤ 2 ^ (clog2 n - 1) := by
    have : 2 * n ≤ 2 ^ clog2 n := hc
    have hp : 2 ^ clog2 n = 2 * 2 ^ (clog2 n - 1) := by
      conv_lhs => rw [show clog2 n = (clog2 n - 1) + 1 by omega]
      ring
    omega
  have := clog2_le_of_le_pow h2
  omega

/-! ### List helpers -/

theorem getD_set_self {α : Type} (l : List α) (i : Nat) (v d : α) (h : i < l.length) :
    (l.set i v).getD i d = v := by
  rw [List.getD_eq_getElem?_getD, List.getElem?_set_self (by simpa using h)]
  simp

theorem getD_set_ne {α : Type} (l : List α) (i j : Nat) (v d : α) (h : i ≠ j) :
    (l.set i v).getD j d = l.getD j d := by
  rw [List.getD_eq_getElem?_getD, List.getElem?_set_ne h, ← List.getD_eq_getElem?_getD]

theorem map_getD_range {α : Type} (l : List α) (d : α) :
    (List.range l.length).map (fun i => l.getD i d) = l := by
  induction l with
  | nil => simp
  | cons a rest ih =>
      rw [List.length_cons, List.range_succ_eq_map, List.map_cons, List.map_map]
      simp only [List.getD_cons_zero]
      congr 1

theorem getD_map_range {α : Type} (f : Nat → α) (n i : Nat) (d : α) (hi : i < n) :
    ((List.range n).map f).getD i d = f i := by
  rw [List.getD_eq_getElem?_getD, List.getElem?_map, List.getElem?_range hi]
  simp

/-! ### indexOfData facts -/

theorem indexOfData_isSome (l : List Bytes) (v : Bytes) :
    (indexOfData l v).isSome ↔ v ∈ l := by
  induction l with
  | nil => simp [indexOfData]
  | cons d rest ih =>
      by_cases hd : d = v
      · simp [indexOfData, hd]
      · simp [indexOfData, hd, Option.isSome_map, ih, Ne.symm hd]

theorem indexOfData_lt (l : List Bytes) (v : Bytes) (i : Nat)
    (h : indexOfData l v = some i) : i < l.length := by
  induction l generalizing i with
  | nil => simp [indexOfData] at h
  | cons d rest ih =>
      by_cases hd : d = v
      · simp [indexOfData, hd] at h
        simp
        omega
      · simp [indexOfData, hd] at h
        obtain ⟨j, hj, rfl⟩ := h
        have := ih j hj
        simp
        omega

theorem indexOfData_getD (l : List Bytes) (v : Bytes) (i : Nat)
    (h : indexOfData l v = some i) : l.getD i [] = v := by
  induction l generalizing i with
  | nil => simp [indexOfData] at h
  | cons d rest ih =>
      by_cases hd : d = v
      · simp [indexOfData, hd] at h
        subst h
        simpa using hd
      · simp [indexOfData, hd] at h
        obtain ⟨j, hj, rfl⟩ := h
        simpa using ih j hj

theorem indexOfData_first (l : List Bytes) (v : Bytes) (i : Nat)
    (h : indexOfData l v = some i) : ∀ j, j < i → l.getD j [] ≠ v := by
  induction l generalizing i with
  | nil => simp [indexOfData] at h
  | cons d rest ih =>
      by_cases hd : d = v
      · simp [indexOfData, hd] at h
        omega
      · simp [indexOfData, hd] at h
        obtain ⟨j', hj', rfl⟩ := h
        intro j hj
        cases j with
        | zero => simpa using hd
        | succ j => simpa using ih j' hj' j (by omega)

theorem indexOfData_eq_none (l : List Bytes) (v : Bytes) :
    indexOfData l v = none ↔ v ∉ l := by
  rw [← indexOfData_isSome]
  cases indexOfData l v <;> simp

/-! ### Tree construction facts -/

theorem insertByHash_length (p : Bytes × Bytes) (l : List (Bytes × Bytes)) :
    (insertByHash p l).length = l.length + 1 := by
  induction l with
  | nil => rfl
  | cons q rest ih =>
      rw [insertByHash]
      by_cases hc : bytesCompare p.2 q.2 = .gt
      · simp [hc, ih]
      · simp [hc]

theorem sortByHash_length (l : List (Bytes × Bytes)) :
    (sortByHash l).length = l.length := by
  induction l with
  | nil => rfl
  | cons p rest ih => rw [sortByHash, insertByHash_length, ih, List.length_cons]

theorem leafPairs_length (h : HashTy) (salt : Bool) (data : List Bytes) :
    (leafPairs h salt data).length = data.length := by
  simp [leafPairs]

theorem createLeaves_length (h : HashTy) (salt sorted : Bool) (data : List Bytes) :
    (createLeaves h salt sorted data).length = data.length := by
  by_cases hs : sorted <;>
    simp [createLeaves, hs, sortByHash_length, leafPairs_length]

theorem branchesFrom_length (h : HashTy) (sorted : Bool) (j : Nat)
    (ns : List Bytes) : (branchesFrom h sorted j ns).length = ns.length := by
  induction j generalizing ns with
  | zero => rfl
  | succ j ih => rw [branchesFrom, ih, List.length_set]

theorem branchesFrom_getD_high (h : HashTy) (sorted : Bool) (j : Nat)
    (ns : List Bytes) (i : Nat) (hi : j < i) :
    (branchesFrom h sorted j ns).getD i [] = ns.getD i [] := by
  induction j generalizing ns with
  | zero => rfl
  | succ j ih =>
      rw [branchesFrom, ih _ (by omega), getD_set_ne _ _ _ _ _ (by omega)]

theorem branchesFrom_spec (h : HashTy) (sorted : Bool) (j : Nat)
    (ns : List Bytes) (hj : j < ns.length) (i : Nat) (h1 : 1 ≤ i) (hi : i ≤ j) :
    (branchesFrom h sorted j ns).getD i [] =
      combineBranch h sorted ((branchesFrom h sorted j ns).getD (2 * i) [])
        ((branchesFrom h sorted j ns).getD (2 * i + 1) []) := by
  induction j generalizing ns with
  | zero => omega
  | succ j ih =>
      rw [branchesFrom]
      by_cases hij : i ≤ j
      · exact ih _ (by rw [List.length_set]; omega) hij
      · have hi2 : i = j + 1 := by omega
        subst hi2
        rw [branchesFrom_getD_high _ _ _ _ _ (by omega),
          branchesFrom_getD_high _ _ _ _ _ (by omega),
          branchesFrom_getD_high _ _ _ _ _ (by omega),
          getD_set_self _ _ _ _ hj,
          getD_set_ne _ _ _ _ _ (by omega), getD_set_ne _ _ _ _ _ (by omega)]

theorem newTree_fields (data : List Bytes) (salt sorted : Bool) (h : HashTy)
    (t : MerkleTree) (ht : NewTree data salt sorted h = .ok t) :
    t.Data = (createLeaves h salt sorted data).map Prod.fst ∧
      t.Nodes =
        branchesFrom h sorted (2 ^ clog2 data.length - 1)
          (nodes0Of data salt sorted h) ∧
      data ≠ [] := by
  unfold NewTree at ht
  by_cases hd : data.isEmpty
  · simp [hd] at ht
  · simp only [hd, Bool.false_eq_true, if_false, Except.ok.injEq] at ht
    subst ht
    refine ⟨rfl, rfl, ?_⟩
    simpa [List.isEmpty_iff] using hd

theorem nodes0Of_length (data : List Bytes) (salt sorted : Bool) (h : HashTy) :
    (nodes0Of data salt sorted h).length = 2 * 2 ^ clog2 data.length := by
  have hn : data.length ≤ 2 ^ clog2 data.length := le_pow_clog2 data.length
  simp [nodes0Of, createLeaves_length]
  omega

theorem newTree_nodes_length (data : List Bytes) (salt sorted : Bool)
    (h : HashTy) (t : MerkleTree) (ht : NewTree data salt sorted h = .ok t) :
    t.Nodes.length = 2 * 2 ^ clog2 data.length := by
  obtain ⟨-, hN, -⟩ := newTree_fields data salt sorted h t ht
  rw [hN, branchesFrom_length, nodes0Of_length]

theorem nodes0Of_getD_leaf (data : List Bytes) (salt sorted : Bool) (h : HashTy)
    (i : Nat) (hi : i < data.length) :
    (nodes0Of data salt sorted h).getD (2 ^ clog2 data.length + i) [] =
      ((createLeaves h salt sorted data).getD i ([], [])).2 := by
  rw [nodes0Of, List.append_assoc, List.getD_eq_getElem?_getD,
    List.getElem?_append_right (by simp)]
  simp only [List.length_replicate, Nat.add_sub_cancel_left]
  have hlen : i < (List.map Prod.snd (createLeaves h salt sorted data)).length := by
    simp [createLeaves_length, hi]
  rw [List.getElem?_append, if_pos hlen, List.getElem?_map,
    List.getElem?_eq_getElem (by simp [createLeaves_length, hi])]
  simp [List.getD_eq_getElem?_getD,
    List.getElem?_eq_getElem (by simp [createLeaves_length, hi] : i < (createLeaves h salt sorted data).length)]

theorem nodes0Of_getD_pad (data : List Bytes) (salt sorted : Bool) (h : HashTy)
    (i : Nat) (hi1 : data.length ≤ i) (hi2 : i < 2 ^ clog2 data.length) :
    (nodes0Of data salt sorted h).getD (2 ^ clog2 data.length + i) [] =
      List.replicate h.hashLength 0 := by
  rw [nodes0Of, List.append_assoc, List.getD_eq_getElem?_getD,
    List.getElem?_append_right (by simp)]
  simp only [List.length_replicate, Nat.add_sub_cancel_left]
  rw [List.getElem?_append_right (by simp [createLeaves_length, hi1]),
    List.getElem?_replicate]
  simp only [createLeaves_length, List.length_map]
  rw [if_pos (by omega)]
  rfl

theorem newTree_getD_leaf (data : List Bytes) (salt sorted : Bool) (h : HashTy)
    (t : MerkleTree) (ht : NewTree data salt sorted h = .ok t)
    (i : Nat) (hi : i < data.length) :
    t.Nodes.getD (2 ^ clog2 data.length + i) [] =
      ((createLeaves h salt sorted data).getD i ([], [])).2 := by
  obtain ⟨-, hN, -⟩ := newTree_fields data salt sorted h t ht
  have hp : 1 ≤ 2 ^ clog2 data.length := Nat.one_le_two_pow
  rw [hN, branchesFrom_getD_high _ _ _ _ _ (by omega),
    nodes0Of_getD_leaf data salt sorted h i hi]

theorem newTree_getD_pad (data : List Bytes) (salt sorted : Bool) (h : HashTy)
    (t : MerkleTree) (ht : NewTree data salt sorted h = .ok t)
    (i : Nat) (hi1 : data.length ≤ i) (hi2 : i < 2 ^ clog2 data.length) :
    t.Nodes.getD (2 ^ clog2 data.length + i) [] = List.replicate h.hashLength 0 := by
  obtain ⟨-, hN, -⟩ := newTree_fields data salt sorted h t ht
  rw [hN, branchesFrom_getD_high _ _ _ _ _ (by omega),
    nodes0Of_getD_pad data salt sorted h i hi1 hi2]

theorem newTree_getD_branch (data : List Bytes) (salt sorted : Bool) (h : HashTy)
    (t : MerkleTree) (ht : NewTree data salt sorted h = .ok t)
    (i : Nat) (h1 : 1 ≤ i) (hi : i < 2 ^ clog2 data.length) :
    t.Nodes.getD i [] =
      combineBranch h sorted (t.Nodes.getD (2 * i) []) (t.Nodes.getD (2 * i + 1) []) := by
  obtain ⟨-, hN, -⟩ := newTree_fields data salt sorted h t ht
  rw [hN]
  have hp : 1 ≤ 2 ^ clog2 data.length := Nat.one_le_two_pow
  exact branchesFrom_spec h sorted _ _
    (by rw [nodes0Of_length]; omega) i h1 (by omega)

theorem leafPairs_getD (h : HashTy) (salt : Bool) (data : List Bytes) (i : Nat)
    (hi : i < data.length) :
    (leafPairs h salt data).getD i ([], []) =
      (data.getD i [], leafDigest h salt (data.getD i []) i) := by
  rw [leafPairs, getD_map_range _ _ _ _ hi]

theorem createLeaves_unsorted (h : HashTy) (salt : Bool) (data : List Bytes) :
    createLeaves h salt false data = leafPairs h salt data := by
  simp [createLeaves]

theorem newTree_Data_unsorted (data : List Bytes) (salt : Bool) (h : HashTy)
    (t : MerkleTree) (ht : NewTree data salt false h = .ok t) : t.Data = data := by
  obtain ⟨hD, -, -⟩ := newTree_fields data salt false h t ht
  rw [hD, createLeaves_unsorted, leafPairs, List.map_map]
  have : (Prod.fst ∘ fun i => ((data.getD i [] : Bytes),
      leafDigest h salt (data.getD i []) i)) = fun i => data.getD i [] := rfl
  rw [this, map_getD_range]

theorem newTree_getD_leaf_unsorted (data : List Bytes) (salt : Bool) (h : HashTy)
    (t : MerkleTree) (ht : NewTree data salt false h = .ok t)
    (i : Nat) (hi : i < data.length) :
    t.Nodes.getD (2 ^ clog2 data.length + i) [] =
      leafDigest h salt (data.getD i []) i := by
  rw [newTree_getD_leaf data salt false h t ht i hi, createLeaves_unsorted,
    leafPairs_getD h salt data i hi]

/-! ### Walk and path arithmetic -/

theorem div_pow_lower (x a k : Nat) (h1 : 2 ^ a ≤ x) (hk : k ≤ a) :
    2 ^ (a - k) ≤ x / 2 ^ k := by
  have h2 : 2 ^ (a - k) * 2 ^ k ≤ x := by
    rw [← pow_add]
    have : a - k + k = a := by omega
    rw [this]
    exact h1
  exact (Nat.le_div_iff_mul_le (Nat.pos_pow_of_pos k (by norm_num))).2 h2

theorem div_pow_upper (x a k : Nat) (h2 : x < 2 ^ (a + 1)) (hk : k ≤ a) :
    x / 2 ^ k < 2 ^ (a + 1 - k) := by
  apply (Nat.div_lt_iff_lt_mul (Nat.pos_pow_of_pos k (by norm_num))).2
  calc x < 2 ^ (a + 1) := h2
    _ ≤ 2 ^ (a + 1 - k) * 2 ^ k := by
        rw [← pow_add]
        exact Nat.pow_le_pow_right (by norm_num) (by omega)

theorem div_pow_succ (x k : Nat) : x / 2 ^ (k + 1) = x / 2 ^ k / 2 := by
  rw [Nat.div_div_eq_div_mul, ← pow_succ]

theorem parity_add_pow (idx s l k : Nat) (hks : k < s) (hkl : k < l) :
    (idx + 2 ^ s) / 2 ^ k % 2 = (idx + 2 ^ l) / 2 ^ k % 2 := by
  have hs : (idx + 2 ^ s) / 2 ^ k = idx / 2 ^ k + 2 ^ (s - k) := by
    conv_lhs => rw [show (2:Nat) ^ s = 2 ^ (s - k) * 2 ^ k by
      rw [← pow_add]; congr 1; omega]
    exact Nat.add_mul_div_right idx _ (Nat.pos_pow_of_pos k (by norm_num))
  have hl : (idx + 2 ^ l) / 2 ^ k = idx / 2 ^ k + 2 ^ (l - k) := by
    conv_lhs => rw [show (2:Nat) ^ l = 2 ^ (l - k) * 2 ^ k by
      rw [← pow_add]; congr 1; omega]
    exact Nat.add_mul_div_right idx _ (Nat.pos_pow_of_pos k (by norm_num))
  have es : 2 ^ (s - k) = 2 * 2 ^ (s - k - 1) := by
    rw [← pow_succ']; congr 1; omega
  have el : 2 ^ (l - k) = 2 * 2 ^ (l - k - 1) := by
    rw [← pow_succ']; congr 1; omega
  omega

theorem walkChain_eq (b a : Nat) : b ≤ a → ∀ fuel i, 2 ^ a ≤ i → i < 2 ^ (a + 1) →
    i ≤ fuel →
    walkChain (2 ^ (b + 1) - 1) fuel i =
      (List.range (a - b)).map (fun k => i / 2 ^ k) := by
  induction a with
  | zero =>
      intro hba fuel i h1 h2 hf
      have hb : b = 0 := by omega
      subst hb
      have hi : i = 1 := by simp at h1 h2; omega
      subst hi
      cases fuel with
      | zero => simp [walkChain]
      | succ f => simp [walkChain]
  | succ a ih =>
      intro hba fuel i h1 h2 hf
      by_cases hb : b = a + 1
      · subst hb
        have hcond : ¬ (2 ^ (a + 1 + 1) - 1 < i) := by omega
        cases fuel with
        | zero => simp [walkChain]
        | succ f => rw [walkChain, if_neg hcond]; simp
      · have hba' : b ≤ a := by omega
        have hple : 2 ^ (b + 1) ≤ 2 ^ (a + 1) :=
          Nat.pow_le_pow_right (by norm_num) (by omega)
        have hcond : 2 ^ (b + 1) - 1 < i := by omega
        have h21 : (2:Nat) ^ 1 ≤ 2 ^ (a + 1) := Nat.pow_le_pow_right (by norm_num) (by omega)
        have hi2 : 2 ≤ i := by simp at h21; omega
        obtain ⟨f, rfl⟩ : ∃ f, fuel = f + 1 := ⟨fuel - 1, by omega⟩
        rw [walkChain, if_pos hcond]
        have hlow : 2 ^ a ≤ i / 2 := by
          have := div_pow_lower i (a + 1) 1 h1 (by omega)
          simpa using this
        have hup : i / 2 < 2 ^ (a + 1) := by
          have := div_pow_upper i (a + 1) 1 h2 (by omega)
          simpa using this
        rw [ih hba' f (i / 2) hlow hup (by omega)]
        have hs : a + 1 - b = (a - b) + 1 := by omega
        rw [hs, List.range_succ_eq_map, List.map_cons, List.map_map]
        congr 1
        · simp
        · apply List.map_congr_left
          intro k _
          simp only [Function.comp_apply]
          rw [Nat.div_div_eq_div_mul, pow_succ']

theorem walkChain_eq1 (a : Nat) (fuel i : Nat) (h1 : 2 ^ a ≤ i)
    (h2 : i < 2 ^ (a + 1)) (hf : i ≤ fuel) :
    walkChain 1 fuel i = (List.range a).map (fun k => i / 2 ^ k) := by
  have h := walkChain_eq 0 a (Nat.zero_le a) fuel i h1 h2 hf
  norm_num at h
  exact h

theorem combineBranch_false (h : HashTy) (l r : Bytes) :
    combineBranch h false l r = h.hashFn [l, r] := by
  simp [combineBranch]

theorem gphGo_path (hh : HashTy) (nodes : List Bytes) (L : Nat)
    (HRec : ∀ i, 1 ≤ i → i < 2 ^ L →
      nodes.getD i [] = hh.hashFn [nodes.getD (2 * i) [], nodes.getD (2 * i + 1) []])
    (idx : Nat) (hidx : idx < 2 ^ L) (S : Nat) (hS : S ≤ L) :
    ∀ c k0, k0 + c ≤ S →
      gphGo hh (nodes.getD ((idx + 2 ^ L) / 2 ^ k0) []) ((idx + 2 ^ S) / 2 ^ k0)
        ((List.range c).map fun k => nodes.getD (((idx + 2 ^ L) / 2 ^ (k0 + k)) ^^^ 1) [])
      = nodes.getD ((idx + 2 ^ L) / 2 ^ (k0 + c)) [] := by
  intro c
  induction c with
  | zero =>
      intro k0 hk
      simp [gphGo]
  | succ c ih =>
      intro k0 hk
      have hk0S : k0 < S := by omega
      have hk0L : k0 ≤ L := by omega
      rw [List.range_succ_eq_map, List.map_cons, List.map_map, gphGo]
      have hxlow : 2 ^ L ≤ idx + 2 ^ L := by omega
      have hxup : idx + 2 ^ L < 2 ^ (L + 1) := by
        have : (2:Nat) ^ (L + 1) = 2 * 2 ^ L := by rw [pow_succ']
        omega
      have hplow : 2 ^ (L - k0) ≤ (idx + 2 ^ L) / 2 ^ k0 :=
        div_pow_lower _ L k0 hxlow hk0L
      have hpup : (idx + 2 ^ L) / 2 ^ k0 < 2 ^ (L + 1 - k0) :=
        div_pow_upper _ L k0 hxup hk0L
      have hpnext : (idx + 2 ^ L) / 2 ^ (k0 + 1) = (idx + 2 ^ L) / 2 ^ k0 / 2 :=
        div_pow_succ _ k0
      have hpn1 : 1 ≤ (idx + 2 ^ L) / 2 ^ (k0 + 1) := by
        have := div_pow_lower (idx + 2 ^ L) L (k0 + 1)
        by_cases hkL : k0 + 1 ≤ L
        · have h1 := div_pow_lower (idx + 2 ^ L) L (k0 + 1) hxlow hkL
          have h2 : 1 ≤ 2 ^ (L - (k0 + 1)) := Nat.one_le_two_pow
          omega
        · have hkL' : k0 = L := by omega
          subst hkL'
          omega
      have hpnup : (idx + 2 ^ L) / 2 ^ (k0 + 1) < 2 ^ L := by
        have h1 := div_pow_upper (idx + 2 ^ L) L (k0 + 1) hxup (by omega)
        calc (idx + 2 ^ L) / 2 ^ (k0 + 1) < 2 ^ (L + 1 - (k0 + 1)) := h1
          _ ≤ 2 ^ L := Nat.pow_le_pow_right (by norm_num) (by omega)
      have hpar : (idx + 2 ^ S) / 2 ^ k0 % 2 = (idx + 2 ^ L) / 2 ^ k0 % 2 := by
        by_cases hSL : S = L
        · rw [hSL]
        · exact parity_add_pow idx S L k0 hk0S (by omega)
      have hvnext : (idx + 2 ^ S) / 2 ^ k0 / 2 = (idx + 2 ^ S) / 2 ^ (k0 + 1) :=
        (div_pow_succ _ k0).symm
      have hrec := HRec ((idx + 2 ^ L) / 2 ^ (k0 + 1)) hpn1 hpnup
      have hcomb :
          (if (idx + 2 ^ S) / 2 ^ k0 % 2 = 0 then
            hh.hashFn [nodes.getD ((idx + 2 ^ L) / 2 ^ k0) [],
              nodes.getD (((idx + 2 ^ L) / 2 ^ (k0 + 0)) ^^^ 1) []]
           else
            hh.hashFn [nodes.getD (((idx + 2 ^ L) / 2 ^ (k0 + 0)) ^^^ 1) [],
              nodes.getD ((idx + 2 ^ L) / 2 ^ k0) []]) =
          nodes.getD ((idx + 2 ^ L) / 2 ^ (k0 + 1)) [] := by
        simp only [Nat.add_zero]
        by_cases hpx : (idx + 2 ^ L) / 2 ^ k0 % 2 = 0
        · rw [if_pos (by omega)]
          have heq : (idx + 2 ^ L) / 2 ^ k0 = 2 * ((idx + 2 ^ L) / 2 ^ (k0 + 1)) := by
            omega
          have hxor : ((idx + 2 ^ L) / 2 ^ k0) ^^^ 1 =
              2 * ((idx + 2 ^ L) / 2 ^ (k0 + 1)) + 1 := by
            rw [xor_one_of_even _ hpx, heq]
          rw [hrec, hxor, heq]
        · rw [if_neg (by omega)]
          have hpx1 : (idx + 2 ^ L) / 2 ^ k0 % 2 = 1 := by omega
          have heq : (idx + 2 ^ L) / 2 ^ k0 = 2 * ((idx + 2 ^ L) / 2 ^ (k0 + 1)) + 1 := by
            omega
          have hxor : ((idx + 2 ^ L) / 2 ^ k0) ^^^ 1 =
              2 * ((idx + 2 ^ L) / 2 ^ (k0 + 1)) := by
            rw [xor_one_of_odd _ hpx1, heq]
            omega
          rw [hrec, hxor, heq]
      rw [hcomb, hvnext]
      have hlist : ((List.range c).map
            ((fun k => nodes.getD (((idx + 2 ^ L) / 2 ^ (k0 + k)) ^^^ 1) []) ∘ (· + 1))) =
          (List.range c).map
            (fun k => nodes.getD (((idx + 2 ^ L) / 2 ^ ((k0 + 1) + k)) ^^^ 1) []) := by
        apply List.map_congr_left
        intro k _
        simp only [Function.comp_apply]
        rw [show k0 + (k + 1) = k0 + 1 + k by omega]
      rw [hlist, ih (k0 + 1) (by omega)]
      rw [show k0 + 1 + c = k0 + (c + 1) by omega]

theorem pollard_length (t : MerkleTree) (hgt : Nat)
    (hlen : 2 ^ (hgt + 1) ≤ t.Nodes.length) :
    (t.Pollard hgt).length = 2 ^ (hgt + 1) - 1 := by
  simp [MerkleTree.Pollard, List.length_drop, List.length_take]
  omega

theorem pollard_getD (t : MerkleTree) (hgt p : Nat)
    (hp : p + 1 < 2 ^ (hgt + 1)) :
    (t.Pollard hgt).getD p [] = t.Nodes.getD (p + 1) [] := by
  rw [MerkleTree.Pollard, List.getD_eq_getElem?_getD, List.getElem?_drop,
    List.getElem?_take]
  rw [if_pos (by omega), ← List.getD_eq_getElem?_getD]
  congr 1
  omega

/-- C1 amended core: round-trip proof verification on unsorted trees. -/
theorem verifyRoundtripUnsorted (hh : HashTy) (salt : Bool) (data : List Bytes)
    (t : MerkleTree) (ht : NewTree data salt false hh = .ok t)
    (v : Bytes) (hv : v ∈ data) (hgt : Nat)
    (hpol : 2 ^ (hgt + 1) ≤ t.Nodes.length) :
    ∃ p, GenerateProof t v hgt = .ok p ∧
      VerifyProofUsing v salt p (t.Pollard hgt) hh = true := by
  have hData : t.Data = data := newTree_Data_unsorted data salt hh t ht
  have hLen : t.Nodes.length = 2 * 2 ^ clog2 data.length :=
    newTree_nodes_length data salt false hh t ht
  have hpow : (2:Nat) ^ (clog2 data.length + 1) = 2 * 2 ^ clog2 data.length := by
    rw [pow_succ']
  have hLpow : 2 ^ (hgt + 1) ≤ 2 ^ (clog2 data.length + 1) := by omega
  have hgtL : hgt ≤ clog2 data.length := by
    have := (Nat.pow_le_pow_iff_right (by norm_num : 1 < 2)).1 hLpow
    omega
  have hsome : (indexOfData data v).isSome = true := (indexOfData_isSome data v).2 hv
  obtain ⟨idx, hidx⟩ : ∃ i, indexOfData data v = some i := by
    cases hcase : indexOfData data v with
    | none => rw [hcase] at hsome; simp at hsome
    | some i => exact ⟨i, rfl⟩
  have hidxn : idx < data.length := indexOfData_lt data v idx hidx
  have hnN : data.length ≤ 2 ^ clog2 data.length := le_pow_clog2 data.length
  have hidxN : idx < 2 ^ clog2 data.length := by omega
  have hpl : ¬ ((clog2 data.length : Int) - (hgt : Int) < 0) := by
    omega
  have hgen : GenerateProof t v hgt =
      .ok ⟨(walkChain (2 ^ (hgt + 1) - 1) (idx + t.Nodes.length / 2)
              (idx + t.Nodes.length / 2)).map (fun j => t.Nodes.getD (j ^^^ 1) []),
            idx⟩ := by
    unfold GenerateProof
    rw [hData, hidx]
    simp only [if_neg hpl]
  have hstartN : idx + t.Nodes.length / 2 = idx + 2 ^ clog2 data.length := by omega
  have hwc : walkChain (2 ^ (hgt + 1) - 1) (idx + t.Nodes.length / 2)
      (idx + t.Nodes.length / 2) =
      (List.range (clog2 data.length - hgt)).map
        (fun k => (idx + 2 ^ clog2 data.length) / 2 ^ k) := by
    rw [hstartN]
    exact walkChain_eq hgt (clog2 data.length) hgtL _ _ (by omega) (by omega) le_rfl
  have HRec : ∀ i, 1 ≤ i → i < 2 ^ clog2 data.length →
      t.Nodes.getD i [] =
        hh.hashFn [t.Nodes.getD (2 * i) [], t.Nodes.getD (2 * i + 1) []] := by
    intro i h1 h2
    rw [newTree_getD_branch data salt false hh t ht i h1 h2, combineBranch_false]
  have hleaf : leafDigest hh salt v idx =
      t.Nodes.getD (2 ^ clog2 data.length + idx) [] := by
    rw [newTree_getD_leaf_unsorted data salt hh t ht idx hidxn,
      indexOfData_getD data v idx hidx]
  have hpath := gphGo_path hh t.Nodes (clog2 data.length) HRec idx hidxN
    (clog2 data.length - hgt) (by omega) (clog2 data.length - hgt) 0 (by omega)
  simp only [Nat.zero_add, pow_zero, Nat.div_one] at hpath
  have hph : generateProofHash v salt
      ⟨(walkChain (2 ^ (hgt + 1) - 1) (idx + t.Nodes.length / 2)
          (idx + t.Nodes.length / 2)).map (fun j => t.Nodes.getD (j ^^^ 1) []),
        idx⟩ hh =
      t.Nodes.getD ((idx + 2 ^ clog2 data.length) / 2 ^ (clog2 data.length - hgt)) [] := by
    rw [generateProofHash]
    simp only [hwc, List.map_map, List.length_map, List.length_range]
    rw [hleaf, show 2 ^ clog2 data.length + idx = idx + 2 ^ clog2 data.length by omega]
    exact hpath
  refine ⟨_, hgen, ?_⟩
  rw [VerifyProofUsing]
  have hplen : (t.Pollard hgt).length = 2 ^ (hgt + 1) - 1 :=
    pollard_length t hgt (by omega)
  have hm1 : 2 ^ hgt ≤ (idx + 2 ^ clog2 data.length) / 2 ^ (clog2 data.length - hgt) := by
    have := div_pow_lower (idx + 2 ^ clog2 data.length) (clog2 data.length)
      (clog2 data.length - hgt) (by omega) (by omega)
    rw [show clog2 data.length - (clog2 data.length - hgt) = hgt by omega] at this
    exact this
  have hm2 : (idx + 2 ^ clog2 data.length) / 2 ^ (clog2 data.length - hgt) <
      2 ^ (hgt + 1) := by
    have := div_pow_upper (idx + 2 ^ clog2 data.length) (clog2 data.length)
      (clog2 data.length - hgt) (by omega) (by omega)
    rw [show clog2 data.length + 1 - (clog2 data.length - hgt) = hgt + 1 by omega] at this
    exact this
  have hp2 : (2:Nat) ^ (hgt + 1) = 2 * 2 ^ hgt := by rw [pow_succ']
  apply List.any_eq_true.2
  refine ⟨2 ^ (hgt + 1) - 1 -
      (idx + 2 ^ clog2 data.length) / 2 ^ (clog2 data.length - hgt),
    List.mem_range.2 (by rw [hplen]; omega), ?_⟩
  rw [hplen, hph]
  rw [show 2 ^ (hgt + 1) - 1 - 1 -
      (2 ^ (hgt + 1) - 1 -
        (idx + 2 ^ clog2 data.length) / 2 ^ (clog2 data.length - hgt)) =
      (idx + 2 ^ clog2 data.length) / 2 ^ (clog2 data.length - hgt) - 1 by omega]
  rw [pollard_getD t hgt _ (by omega)]
  rw [show (idx + 2 ^ clog2 data.length) / 2 ^ (clog2 data.length - hgt) - 1 + 1 =
      (idx + 2 ^ clog2 data.length) / 2 ^ (clog2 data.length - hgt) by omega]
  exact beq_self_eq_true _

/-! ### Multiproof machinery -/

theorem xor_one_range (a x : Nat) (ha : 1 ≤ a) (h1 : 2 ^ a ≤ x)
    (h2 : x < 2 ^ (a + 1)) : 2 ^ a ≤ x ^^^ 1 ∧ x ^^^ 1 < 2 ^ (a + 1) := by
  have e1 : (2:Nat) ^ a = 2 * 2 ^ (a - 1) := by
    rw [← pow_succ']
    congr 1
    omega
  have e2 : (2:Nat) ^ (a + 1) = 2 * 2 ^ a := by rw [pow_succ']
  by_cases hx : x % 2 = 0
  · rw [xor_one_of_even x hx]
    omega
  · rw [xor_one_of_odd x (by omega)]
    omega

theorem generateProof0_spec (t : MerkleTree)
    (hLen : t.Nodes.length = 2 * 2 ^ clog2 t.Data.length) (v : Bytes) (p : Proof)
    (h : GenerateProof t v 0 = .ok p) :
    indexOfData t.Data v = some p.Index ∧ p.Index < t.Data.length ∧
      p.Hashes = (List.range (clog2 t.Data.length)).map
        (fun k => t.Nodes.getD
          (((p.Index + 2 ^ clog2 t.Data.length) / 2 ^ k) ^^^ 1) []) := by
  unfold GenerateProof at h
  cases hidx : indexOfData t.Data v with
  | none => rw [hidx] at h; simp at h
  | some idx =>
      rw [hidx] at h
      simp only [] at h
      have hcond : ¬ ((clog2 t.Data.length : Int) - ((0:Nat) : Int) < 0) := by
        push_cast
        omega
      rw [if_neg hcond] at h
      simp only [GPResult.ok.injEq] at h
      subst h
      have hidxn : idx < t.Data.length := indexOfData_lt _ _ _ hidx
      have hnN : t.Data.length ≤ 2 ^ clog2 t.Data.length :=
        le_pow_clog2 t.Data.length
      have hpow : (2:Nat) ^ (clog2 t.Data.length + 1) =
          2 * 2 ^ clog2 t.Data.length := by rw [pow_succ']
      refine ⟨rfl, hidxn, ?_⟩
      have hstart : idx + t.Nodes.length / 2 = idx + 2 ^ clog2 t.Data.length := by
        omega
      rw [hstart,
        walkChain_eq 0 (clog2 t.Data.length) (by omega) _ _ (by omega) (by omega)
          le_rfl,
        List.map_map]
      simp only [Nat.sub_zero]
      rfl

theorem collectSingles_spec (t : MerkleTree) :
    ∀ (vs : List Bytes) (pairs : List (List Bytes × Nat)),
      collectSingles t vs = some pairs →
      pairs.length = vs.length ∧
        ∀ i, i < vs.length →
          GenerateProof t (vs.getD i []) 0 =
            .ok ⟨(pairs.getD i ([], 0)).1, (pairs.getD i ([], 0)).2⟩ := by
  intro vs
  induction vs with
  | nil =>
      intro pairs h
      simp [collectSingles] at h
      subst h
      exact ⟨rfl, by intro i hi; simp at hi⟩
  | cons v rest ih =>
      intro pairs h
      rw [collectSingles] at h
      cases hgp : GenerateProof t v 0 with
      | ok p =>
          rw [hgp] at h
          cases hrest : collectSingles t rest with
          | none => rw [hrest] at h; simp at h
          | some ps =>
              rw [hrest] at h
              have h2 : (p.Hashes, p.Index) :: ps = pairs := by simpa using h
              subst h2
              obtain ⟨hlen, hall⟩ := ih ps hrest
              refine ⟨by simp [hlen], ?_⟩
              intro i hi
              cases i with
              | zero => simpa using hgp
              | succ i => simpa using hall i (by simpa using hi)
      | dataNotFound => rw [hgp] at h; simp at h
      | panic => rw [hgp] at h; simp at h

theorem mpAssignWalk_spec (hs : List Bytes) (a : Nat) :
    ∀ fuel j hashNum (m : Nat → Option Bytes) (c : Nat → Bool),
      2 ^ a ≤ j → j < 2 ^ (a + 1) → j ≤ fuel →
      ((∀ x, (mpAssignWalk hs fuel j hashNum (m, c)).2 x = true ↔
          (c x = true ∨ ∃ k, k < a ∧ x = j / 2 ^ k)) ∧
        (∀ x, (∀ k, k < a → x ≠ (j / 2 ^ k) ^^^ 1) →
          (mpAssignWalk hs fuel j hashNum (m, c)).1 x = m x) ∧
        (∀ k, k < a →
          (mpAssignWalk hs fuel j hashNum (m, c)).1 ((j / 2 ^ k) ^^^ 1) =
            some (hs.getD (hashNum + k) []))) := by
  induction a with
  | zero =>
      intro fuel j hashNum m c h1 h2 hf
      have hj : j = 1 := by simp at h1 h2; omega
      subst hj
      have hres : mpAssignWalk hs fuel 1 hashNum (m, c) = (m, c) := by
        cases fuel with
        | zero => rfl
        | succ f => rw [mpAssignWalk, if_neg (by omega)]
      rw [hres]
      refine ⟨fun x => by simp, fun x _ => rfl, fun k hk => by omega⟩
  | succ a ih =>
      intro fuel j hashNum m c h1 h2 hf
      have hp2 : (2:Nat) ^ (a + 1) = 2 * 2 ^ a := by rw [pow_succ']
      have hp22 : (2:Nat) ^ (a + 1 + 1) = 2 * 2 ^ (a + 1) := by rw [pow_succ']
      have hpa1 : (1:Nat) ≤ 2 ^ a := Nat.one_le_two_pow
      have hj2 : 2 ≤ j := by omega
      obtain ⟨f, rfl⟩ : ∃ f, fuel = f + 1 := ⟨fuel - 1, by omega⟩
      rw [mpAssignWalk, if_pos (by omega)]
      have hjlow : 2 ^ a ≤ j / 2 := by
        have := div_pow_lower j (a + 1) 1 h1 (by omega)
        simpa using this
      have hjup : j / 2 < 2 ^ (a + 1) := by
        have := div_pow_upper j (a + 1) 1 h2 (by omega)
        simpa using this
      obtain ⟨ihc, ihu, ihv⟩ := ih f (j / 2) (hashNum + 1)
        (mpInsert m (j ^^^ 1) (hs.getD hashNum []))
        (calcInsert c j) hjlow hjup (by omega)
      have hdivshift : ∀ k : Nat, j / 2 / 2 ^ k = j / 2 ^ (k + 1) := by
        intro k
        rw [Nat.div_div_eq_div_mul, ← pow_succ']
      have hxj1 : 2 ^ (a + 1) ≤ j ^^^ 1 ∧ j ^^^ 1 < 2 ^ (a + 1 + 1) :=
        xor_one_range (a + 1) j (by omega) h1 h2
      have hdistinct : ∀ k', k' < a → j ^^^ 1 ≠ (j / 2 ^ (k' + 1)) ^^^ 1 := by
        intro k' hk'
        have hw1 : 2 ^ (a - k') ≤ j / 2 ^ (k' + 1) := by
          have := div_pow_lower j (a + 1) (k' + 1) h1 (by omega)
          rw [show a + 1 - (k' + 1) = a - k' by omega] at this
          exact this
        have hw2 : j / 2 ^ (k' + 1) < 2 ^ (a - k' + 1) := by
          have := div_pow_upper j (a + 1) (k' + 1) h2 (by omega)
          rw [show a + 1 + 1 - (k' + 1) = a - k' + 1 by omega] at this
          exact this
        have hwx := xor_one_range (a - k') (j / 2 ^ (k' + 1)) (by omega) hw1 hw2
        have hmono : (2:Nat) ^ (a - k' + 1) ≤ 2 ^ (a + 1) :=
          Nat.pow_le_pow_right (by norm_num) (by omega)
        omega
      refine ⟨?_, ?_, ?_⟩
      · intro x
        rw [ihc x]
        constructor
        · rintro (hcx | ⟨k, hk, rfl⟩)
          · rw [calcInsert] at hcx
            by_cases hxj : x = j
            · exact Or.inr ⟨0, by omega, by simp [hxj]⟩
            · rw [if_neg hxj] at hcx
              exact Or.inl hcx
          · exact Or.inr ⟨k + 1, by omega, hdivshift k⟩
        · rintro (hcx | ⟨k, hk, rfl⟩)
          · left
            rw [calcInsert]
            by_cases hxj : x = j
            · rw [if_pos hxj]
            · rw [if_neg hxj]
              exact hcx
          · cases k with
            | zero =>
                left
                rw [calcInsert]
                simp
            | succ k =>
                right
                exact ⟨k, by omega, by rw [hdivshift]⟩
      · intro x hx
        rw [ihu x (fun k hk => by rw [hdivshift]; exact hx (k + 1) (by omega))]
        rw [mpInsert, if_neg ?hne]
        case hne =>
          have := hx 0 (by omega)
          simpa using this
      · intro k hk
        cases k with
        | zero =>
            have huntouched := ihu (j ^^^ 1)
              (fun k' hk' => by rw [hdivshift]; exact hdistinct k' hk')
            simp only [pow_zero, Nat.div_one, Nat.add_zero]
            rw [huntouched, mpInsert, if_pos rfl]
        | succ k =>
            have := ihv k (by omega)
            rw [hdivshift] at this
            rw [this, show hashNum + 1 + k = hashNum + (k + 1) by omega]

theorem mpAssignWalk_sound (nodes : List Bytes) (hs : List Bytes) (a : Nat)
    (fuel j : Nat) (m : Nat → Option Bytes) (c : Nat → Bool)
    (h1 : 2 ^ a ≤ j) (h2 : j < 2 ^ (a + 1)) (hf : j ≤ fuel)
    (hhs : ∀ k, k < a → hs.getD k [] = nodes.getD ((j / 2 ^ k) ^^^ 1) [])
    (hm : ∀ x v, m x = some v → v = nodes.getD x []) :
    ∀ x v, (mpAssignWalk hs fuel j 0 (m, c)).1 x = some v → v = nodes.getD x [] := by
  obtain ⟨-, ihu, ihv⟩ := mpAssignWalk_spec hs a fuel j 0 m c h1 h2 hf
  intro x v hx
  by_cases hall : ∀ k, k < a → x ≠ (j / 2 ^ k) ^^^ 1
  · rw [ihu x hall] at hx
    exact hm x v hx
  · push_neg at hall
    obtain ⟨k, hk, rfl⟩ := hall
    rw [ihv k hk] at hx
    simp only [Nat.zero_add, Option.some.injEq] at hx
    rw [← hx, hhs k hk]

theorem mpAssignWalk_mono (hs : List Bytes) (a : Nat) (fuel j hashNum : Nat)
    (m : Nat → Option Bytes) (c : Nat → Bool)
    (h1 : 2 ^ a ≤ j) (h2 : j < 2 ^ (a + 1)) (hf : j ≤ fuel)
    (x : Nat) (hx : (m x).isSome = true) :
    ((mpAssignWalk hs fuel j hashNum (m, c)).1 x).isSome = true := by
  obtain ⟨-, ihu, ihv⟩ := mpAssignWalk_spec hs a fuel j hashNum m c h1 h2 hf
  by_cases hall : ∀ k, k < a → x ≠ (j / 2 ^ k) ^^^ 1
  · rw [ihu x hall]
    exact hx
  · push_neg at hall
    obtain ⟨k, hk, rfl⟩ := hall
    rw [ihv k hk]
    rfl

theorem mpAssignWalk_keys (hs : List Bytes) (a : Nat) (fuel j hashNum : Nat)
    (m : Nat → Option Bytes) (c : Nat → Bool)
    (h1 : 2 ^ a ≤ j) (h2 : j < 2 ^ (a + 1)) (hf : j ≤ fuel)
    (x : Nat) (hx : ((mpAssignWalk hs fuel j hashNum (m, c)).1 x).isSome = true) :
    (m x).isSome = true ∨ ∃ k, k < a ∧ x = (j / 2 ^ k) ^^^ 1 := by
  obtain ⟨-, ihu, -⟩ := mpAssignWalk_spec hs a fuel j hashNum m c h1 h2 hf
  by_cases hall : ∀ k, k < a → x ≠ (j / 2 ^ k) ^^^ 1
  · rw [ihu x hall] at hx
    exact Or.inl hx
  · push_neg at hall
    obtain ⟨k, hk, rfl⟩ := hall
    exact Or.inr ⟨k, hk, rfl⟩

theorem mpAssignWalk_present (hs : List Bytes) (a : Nat) (fuel j : Nat)
    (m : Nat → Option Bytes) (c : Nat → Bool)
    (h1 : 2 ^ a ≤ j) (h2 : j < 2 ^ (a + 1)) (hf : j ≤ fuel)
    (k : Nat) (hk : k < a) :
    ((mpAssignWalk hs fuel j 0 (m, c)).1 ((j / 2 ^ k) ^^^ 1)).isSome = true := by
  obtain ⟨-, -, ihv⟩ := mpAssignWalk_spec hs a fuel j 0 m c h1 h2 hf
  rw [ihv k hk]
  rfl

theorem mpAssignWalk_calc (hs : List Bytes) (a : Nat) (fuel j hashNum : Nat)
    (m : Nat → Option Bytes) (c : Nat → Bool)
    (h1 : 2 ^ a ≤ j) (h2 : j < 2 ^ (a + 1)) (hf : j ≤ fuel) (x : Nat) :
    ((mpAssignWalk hs fuel j hashNum (m, c)).2 x = true ↔
      (c x = true ∨ ∃ k, k < a ∧ x = j / 2 ^ k)) :=
  (mpAssignWalk_spec hs a fuel j hashNum m c h1 h2 hf).1 x

theorem assignFold_calc (half L : Nat) (pairs : List (List Bytes × Nat))
    (hb : ∀ p ∈ pairs, 2 ^ L ≤ p.2 + half ∧ p.2 + half < 2 ^ (L + 1)) :
    ∀ (mc : (Nat → Option Bytes) × (Nat → Bool)) (x : Nat),
      ((pairs.foldl (fun mc p => mpAssignWalk p.1 (p.2 + half) (p.2 + half) 0 mc)
          mc).2 x = true ↔
        (mc.2 x = true ∨ ∃ p ∈ pairs, ∃ k, k < L ∧ x = (p.2 + half) / 2 ^ k)) := by
  induction pairs with
  | nil => intro mc x; simp
  | cons p rest ih =>
      intro mc x
      obtain ⟨hb1, hb2⟩ := hb p (by simp)
      rw [List.foldl_cons,
        ih (fun q hq => hb q (by simp [hq])) _ x,
        mpAssignWalk_calc p.1 L _ _ 0 mc.1 mc.2 hb1 hb2 le_rfl x]
      constructor
      · rintro ((hc | ⟨k, hk, rfl⟩) | ⟨q, hq, k, hk, rfl⟩)
        · exact Or.inl hc
        · exact Or.inr ⟨p, by simp, k, hk, rfl⟩
        · exact Or.inr ⟨q, by simp [hq], k, hk, rfl⟩
      · rintro (hc | ⟨q, hq, k, hk, rfl⟩)
        · exact Or.inl (Or.inl hc)
        · rcases List.mem_cons.1 hq with rfl | hq'
          · exact Or.inl (Or.inr ⟨k, hk, rfl⟩)
          · exact Or.inr ⟨q, hq', k, hk, rfl⟩

theorem assignFold_sound (nodes : List Bytes) (half L : Nat)
    (pairs : List (List Bytes × Nat))
    (hb : ∀ p ∈ pairs, 2 ^ L ≤ p.2 + half ∧ p.2 + half < 2 ^ (L + 1))
    (hhs : ∀ p ∈ pairs, ∀ k, k < L →
      p.1.getD k [] = nodes.getD (((p.2 + half) / 2 ^ k) ^^^ 1) []) :
    ∀ (mc : (Nat → Option Bytes) × (Nat → Bool)),
      (∀ x v, mc.1 x = some v → v = nodes.getD x []) →
      ∀ x v,
        ((pairs.foldl (fun mc p => mpAssignWalk p.1 (p.2 + half) (p.2 + half) 0 mc)
            mc).1 x = some v) → v = nodes.getD x [] := by
  induction pairs with
  | nil => intro mc hmc x v hx; exact hmc x v hx
  | cons p rest ih =>
      intro mc hmc x v hx
      obtain ⟨hb1, hb2⟩ := hb p (by simp)
      rw [List.foldl_cons] at hx
      exact ih (fun q hq => hb q (by simp [hq])) (fun q hq => hhs q (by simp [hq])) _
        (mpAssignWalk_sound nodes p.1 L _ _ mc.1 mc.2 hb1 hb2 le_rfl
          (hhs p (by simp)) hmc)
        x v hx

theorem assignFold_mono (half L : Nat) (pairs : List (List Bytes × Nat))
    (hb : ∀ p ∈ pairs, 2 ^ L ≤ p.2 + half ∧ p.2 + half < 2 ^ (L + 1)) :
    ∀ (mc : (Nat → Option Bytes) × (Nat → Bool)) (x : Nat),
      (mc.1 x).isSome = true →
      ((pairs.foldl (fun mc p => mpAssignWalk p.1 (p.2 + half) (p.2 + half) 0 mc)
          mc).1 x).isSome = true := by
  induction pairs with
  | nil => intro mc x hx; exact hx
  | cons p rest ih =>
      intro mc x hx
      obtain ⟨hb1, hb2⟩ := hb p (by simp)
      rw [List.foldl_cons]
      exact ih (fun q hq => hb q (by simp [hq])) _ x
        (mpAssignWalk_mono p.1 L _ _ 0 mc.1 mc.2 hb1 hb2 le_rfl x hx)

theorem assignFold_present (half L : Nat) (pairs : List (List Bytes × Nat))
    (hb : ∀ p ∈ pairs, 2 ^ L ≤ p.2 + half ∧ p.2 + half < 2 ^ (L + 1)) :
    ∀ (mc : (Nat → Option Bytes) × (Nat → Bool)),
      ∀ p ∈ pairs, ∀ k, k < L →
      ((pairs.foldl (fun mc p => mpAssignWalk p.1 (p.2 + half) (p.2 + half) 0 mc)
          mc).1 (((p.2 + half) / 2 ^ k) ^^^ 1)).isSome = true := by
  induction pairs with
  | nil => intro mc p hp; simp at hp
  | cons q rest ih =>
      intro mc p hp k hk
      obtain ⟨hb1, hb2⟩ := hb q (by simp)
      rw [List.foldl_cons]
      rcases List.mem_cons.1 hp with rfl | hp'
      · exact assignFold_mono half L rest (fun r hr => hb r (by simp [hr])) _ _
          (mpAssignWalk_present p.1 L _ _ mc.1 mc.2 hb1 hb2 le_rfl k hk)
      · exact ih (fun r hr => hb r (by simp [hr])) _ p hp' k hk

theorem assignFold_keys (half L : Nat) (pairs : List (List Bytes × Nat))
    (hb : ∀ p ∈ pairs, 2 ^ L ≤ p.2 + half ∧ p.2 + half < 2 ^ (L + 1)) :
    ∀ (mc : (Nat → Option Bytes) × (Nat → Bool)) (x : Nat),
      ((pairs.foldl (fun mc p => mpAssignWalk p.1 (p.2 + half) (p.2 + half) 0 mc)
          mc).1 x).isSome = true →
      (mc.1 x).isSome = true ∨
        ∃ p ∈ pairs, ∃ k, k < L ∧ x = ((p.2 + half) / 2 ^ k) ^^^ 1 := by
  induction pairs with
  | nil => intro mc x hx; exact Or.inl hx
  | cons p rest ih =>
      intro mc x hx
      obtain ⟨hb1, hb2⟩ := hb p (by simp)
      rw [List.foldl_cons] at hx
      rcases ih (fun q hq => hb q (by simp [hq])) _ x hx with hx' | ⟨q, hq, k, hk, rfl⟩
      · rcases mpAssignWalk_keys p.1 L _ _ 0 mc.1 mc.2 hb1 hb2 le_rfl x hx' with
          h | ⟨k, hk, rfl⟩
        · exact Or.inl h
        · exact Or.inr ⟨p, by simp, k, hk, rfl⟩
      · exact Or.inr ⟨q, by simp [hq], k, hk, rfl⟩

theorem mpDeleteWalk_subset (c : Nat → Bool) :
    ∀ fuel j (m : Nat → Option Bytes) (x : Nat),
      (mpDeleteWalk c fuel j m x).isSome = true → (m x).isSome = true := by
  intro fuel
  induction fuel with
  | zero => intro j m x hx; exact hx
  | succ f ih =>
      intro j m x hx
      rw [mpDeleteWalk] at hx
      by_cases hj : 1 < j
      · rw [if_pos hj] at hx
        have hx' := ih (j / 2) _ x hx
        by_cases hc : c (j ^^^ 1)
        · rw [if_pos hc] at hx'
          rw [mpErase] at hx'
          by_cases hxk : x = j ^^^ 1
          · rw [if_pos hxk] at hx'
            simp at hx'
          · rw [if_neg hxk] at hx'
            exact hx'
        · rw [if_neg hc] at hx'
          exact hx'
      · rw [if_neg hj] at hx
        exact hx

theorem mpDeleteWalk_calc_false (c : Nat → Bool) :
    ∀ fuel j (m : Nat → Option Bytes) (x : Nat),
      c x = false → mpDeleteWalk c fuel j m x = m x := by
  intro fuel
  induction fuel with
  | zero => intro j m x _; rfl
  | succ f ih =>
      intro j m x hcx
      rw [mpDeleteWalk]
      by_cases hj : 1 < j
      · rw [if_pos hj, ih (j / 2) _ x hcx]
        by_cases hc : c (j ^^^ 1)
        · rw [if_pos hc, mpErase, if_neg (by intro he; rw [he] at hcx; rw [hcx] at hc; simp at hc)]
        · rw [if_neg hc]
      · rw [if_neg hj]

theorem deleteFold_subset (c : Nat → Bool) (half : Nat)
    (pairs : List (List Bytes × Nat)) :
    ∀ (m : Nat → Option Bytes) (x : Nat),
      ((pairs.foldl (fun m p => mpDeleteWalk c (p.2 + half) (p.2 + half) m) m) x).isSome
          = true → (m x).isSome = true := by
  induction pairs with
  | nil => intro m x hx; exact hx
  | cons p rest ih =>
      intro m x hx
      rw [List.foldl_cons] at hx
      exact mpDeleteWalk_subset c _ _ m x (ih _ x hx)

theorem deleteFold_calc_false (c : Nat → Bool) (half : Nat)
    (pairs : List (List Bytes × Nat)) :
    ∀ (m : Nat → Option Bytes) (x : Nat), c x = false →
      (pairs.foldl (fun m p => mpDeleteWalk c (p.2 + half) (p.2 + half) m) m) x =
        m x := by
  induction pairs with
  | nil => intro m x _; rfl
  | cons p rest ih =>
      intro m x hcx
      rw [List.foldl_cons, ih _ x hcx, mpDeleteWalk_calc_false c _ _ m x hcx]

theorem mpInsert_sound (nodes : List Bytes) (m : Nat → Option Bytes) (k : Nat)
    (v : Bytes) (hm : ∀ x w, m x = some w → w = nodes.getD x [])
    (hv : v = nodes.getD k []) :
    ∀ x w, mpInsert m k v x = some w → w = nodes.getD x [] := by
  intro x w hx
  rw [mpInsert] at hx
  by_cases hxk : x = k
  · rw [if_pos hxk] at hx
    simp only [Option.some.injEq] at hx
    rw [← hx, hv, hxk]
  · rw [if_neg hxk] at hx
    exact hm x w hx

theorem mpLeafInserts_untouched (h : HashTy) (salt : Bool) (dataL : List Bytes)
    (values : Nat) :
    ∀ (indices : List Nat) (i0 : Nat) (m : Nat → Option Bytes) (x : Nat),
      (∀ idx ∈ indices, x ≠ idx + values) →
      mpLeafInserts h salt dataL values i0 indices m x = m x := by
  intro indices
  induction indices with
  | nil => intro i0 m x _; rfl
  | cons index rest ih =>
      intro i0 m x hx
      rw [mpLeafInserts, ih _ _ x (fun idx hidx => hx idx (by simp [hidx])),
        mpInsert, if_neg (hx index (by simp))]

theorem mpLeafInserts_mono (h : HashTy) (salt : Bool) (dataL : List Bytes)
    (values : Nat) :
    ∀ (indices : List Nat) (i0 : Nat) (m : Nat → Option Bytes) (x : Nat),
      (m x).isSome = true →
      (mpLeafInserts h salt dataL values i0 indices m x).isSome = true := by
  intro indices
  induction indices with
  | nil => intro i0 m x hx; exact hx
  | cons index rest ih =>
      intro i0 m x hx
      rw [mpLeafInserts]
      apply ih
      rw [mpInsert]
      by_cases hxk : x = index + values
      · rw [if_pos hxk]; rfl
      · rw [if_neg hxk]; exact hx

theorem mpLeafInserts_present (h : HashTy) (salt : Bool) (dataL : List Bytes)
    (values : Nat) :
    ∀ (indices : List Nat) (i0 : Nat) (m : Nat → Option Bytes),
      ∀ idx ∈ indices,
      (mpLeafInserts h salt dataL values i0 indices m (idx + values)).isSome = true := by
  intro indices
  induction indices with
  | nil => intro i0 m idx hidx; simp at hidx
  | cons index rest ih =>
      intro i0 m idx hidx
      rcases List.mem_cons.1 hidx with rfl | hidx'
      · rw [mpLeafInserts]
        apply mpLeafInserts_mono
        rw [mpInsert, if_pos rfl]
        rfl
      · rw [mpLeafInserts]
        exact ih _ _ idx hidx'

theorem mpLeafInserts_sound (h : HashTy) (salt : Bool) (dataL : List Bytes)
    (values : Nat) (nodes : List Bytes) :
    ∀ (indices : List Nat) (i0 : Nat) (m : Nat → Option Bytes),
      (∀ x v, m x = some v → v = nodes.getD x []) →
      (∀ i, i < indices.length →
        leafDigest h salt (dataL.getD (i0 + i) []) (indices.getD i 0) =
          nodes.getD (indices.getD i 0 + values) []) →
      ∀ x v, mpLeafInserts h salt dataL values i0 indices m x = some v →
        v = nodes.getD x [] := by
  intro indices
  induction indices with
  | nil => intro i0 m hm _ x v hx; exact hm x v hx
  | cons index rest ih =>
      intro i0 m hm hleaf x v hx
      rw [mpLeafInserts] at hx
      refine ih _ _ ?_ ?_ x v hx
      · apply mpInsert_sound nodes m _ _ hm
        have := hleaf 0 (by simp)
        simpa using this
      · intro i hi
        have := hleaf (i + 1) (by simpa using hi)
        rw [show i0 + (i + 1) = i0 + 1 + i by omega] at this
        simpa using this

theorem mpLeafInserts_lastvalue (h : HashTy) (salt : Bool) (dataL : List Bytes)
    (values : Nat) :
    ∀ (indices : List Nat) (i0 : Nat) (m : Nat → Option Bytes) (i : Nat),
      i < indices.length →
      (∀ j, i < j → j < indices.length → indices.getD j 0 ≠ indices.getD i 0) →
      mpLeafInserts h salt dataL values i0 indices m (indices.getD i 0 + values) =
        some (leafDigest h salt (dataL.getD (i0 + i) []) (indices.getD i 0)) := by
  intro indices
  induction indices with
  | nil => intro i0 m i hi; simp at hi
  | cons index rest ih =>
      intro i0 m i hi hlast
      cases i with
      | zero =>
          rw [mpLeafInserts]
          have huntouched : ∀ idx ∈ rest, (index : Nat) + values ≠ idx + values := by
            intro idx hidx
            obtain ⟨jr, hjr, rfl⟩ := List.mem_iff_getElem.1 hidx
            have := hlast (jr + 1) (by omega) (by simpa using hjr)
            have hgd : rest.getD jr 0 = rest[jr] :=
              List.getD_eq_getElem rest 0 hjr
            simp only [List.getD_cons_succ, List.getD_cons_zero] at this
            rw [hgd] at this
            omega
          rw [mpLeafInserts_untouched h salt dataL values rest _ _ _
            (by simpa using huntouched)]
          simp [mpInsert]
      | succ i =>
          rw [mpLeafInserts]
          have := ih (i0 + 1) (mpInsert m (index + values)
              (leafDigest h salt (dataL.getD i0 []) index)) i
            (by simpa using hi)
            (by
              intro j hj1 hj2
              have := hlast (j + 1) (by omega) (by simpa using hj2)
              simpa using this)
          simp only [List.getD_cons_succ]
          rw [this, show i0 + 1 + i = i0 + (i + 1) by omega]

theorem mpCompute_preserves (hh : HashTy) :
    ∀ (j : Nat) (m : Nat → Option Bytes) (x : Nat) (v : Bytes),
      m x = some v → mpCompute hh j m x = some v := by
  intro j
  induction j with
  | zero => intro m x v hx; exact hx
  | succ j ih =>
      intro m x v hx
      rw [mpCompute]
      apply ih
      cases hmj : m (j + 1) with
      | some w => simpa [hmj] using hx
      | none =>
          simp only [hmj]
          cases hc1 : m (2 * (j + 1)) with
          | none => simpa [hc1] using hx
          | some c1 =>
              cases hc2 : m (2 * (j + 1) + 1) with
              | none => simpa [hc1, hc2] using hx
              | some c2 =>
                  simp only [hc1, hc2]
                  rw [mpInsert, if_neg ?hne]
                  · exact hx
                  case hne =>
                    intro he
                    rw [he, hmj] at hx
                    exact Option.noConfusion hx

theorem mpCompute_resolve (hh : HashTy) (nodes : List Bytes) (L : Nat)
    (HRec : ∀ i, 1 ≤ i → i < 2 ^ L →
      nodes.getD i [] = hh.hashFn [nodes.getD (2 * i) [], nodes.getD (2 * i + 1) []])
    (A Srv : Nat → Prop)
    (hA1 : ∀ x, A x → 1 ≤ x)
    (hchild : ∀ x, A x → x < 2 ^ L →
      ((A (2 * x) ∨ Srv (2 * x)) ∧ (A (2 * x + 1) ∨ Srv (2 * x + 1)))) :
    ∀ (j : Nat) (m : Nat → Option Bytes), j < 2 ^ L →
      (∀ x v, m x = some v → v = nodes.getD x []) →
      (∀ x, A x → j < x → m x = some (nodes.getD x [])) →
      (∀ y, Srv y → m y = some (nodes.getD y [])) →
      ∀ x, A x → mpCompute hh j m x = some (nodes.getD x []) := by
  intro j
  induction j with
  | zero =>
      intro m hj hsound hres hsrv x hAx
      exact hres x hAx (hA1 x hAx)
  | succ j ih =>
      intro m hj hsound hres hsrv x hAx
      rw [mpCompute]
      cases hmj : m (j + 1) with
      | some v =>
          simp only []
          refine ih m (by omega) hsound ?_ hsrv x hAx
          intro x' hAx' hx'
          by_cases hxe : x' = j + 1
          · subst hxe
            rw [hmj, hsound _ _ hmj]
          · exact hres x' hAx' (by omega)
      | none =>
          simp only []
          have hchildren : A (j + 1) → m (2 * (j + 1)) = some (nodes.getD (2 * (j + 1)) []) ∧
              m (2 * (j + 1) + 1) = some (nodes.getD (2 * (j + 1) + 1) []) := by
            intro hAj1
            obtain ⟨hcl, hcr⟩ := hchild (j + 1) hAj1 (by omega)
            constructor
            · rcases hcl with hcl | hcl
              · exact hres _ hcl (by omega)
              · exact hsrv _ hcl
            · rcases hcr with hcr | hcr
              · exact hres _ hcr (by omega)
              · exact hsrv _ hcr
          cases hc1 : m (2 * (j + 1)) with
          | none =>
              simp only []
              refine ih m (by omega) hsound ?_ hsrv x hAx
              intro x' hAx' hx'
              by_cases hxe : x' = j + 1
              · subst hxe
                obtain ⟨hl, -⟩ := hchildren hAx'
                rw [hl] at hc1
                exact Option.noConfusion hc1
              · exact hres x' hAx' (by omega)
          | some c1 =>
              cases hc2 : m (2 * (j + 1) + 1) with
              | none =>
                  simp only []
                  refine ih m (by omega) hsound ?_ hsrv x hAx
                  intro x' hAx' hx'
                  by_cases hxe : x' = j + 1
                  · subst hxe
                    obtain ⟨-, hr⟩ := hchildren hAx'
                    rw [hr] at hc2
                    exact Option.noConfusion hc2
                  · exact hres x' hAx' (by omega)
              | some c2 =>
                  simp only []
                  have hval : hh.hashFn [c1, c2] = nodes.getD (j + 1) [] := by
                    rw [hsound _ _ hc1, hsound _ _ hc2,
                      ← HRec (j + 1) (by omega) (by omega)]
                  refine ih (mpInsert m (j + 1) (hh.hashFn [c1, c2])) (by omega)
                    ?_ ?_ ?_ x hAx
                  · exact mpInsert_sound nodes m _ _ hsound hval
                  · intro x' hAx' hx'
                    by_cases hxe : x' = j + 1
                    · subst hxe
                      rw [mpInsert, if_pos rfl, hval]
                    · rw [mpInsert, if_neg hxe]
                      exact hres x' hAx' (by omega)
                  · intro y hy
                    by_cases hye : y = j + 1
                    · subst hye
                      have := hsrv _ hy
                      rw [hmj] at this
                      exact Option.noConfusion this
                    · rw [mpInsert, if_neg hye]
                      exact hsrv y hy

theorem mpDeleteWalk_value (c : Nat → Bool) :
    ∀ fuel j (m : Nat → Option Bytes) (x : Nat) (v : Bytes),
      mpDeleteWalk c fuel j m x = some v → m x = some v := by
  intro fuel
  induction fuel with
  | zero => intro j m x v hx; exact hx
  | succ f ih =>
      intro j m x v hx
      rw [mpDeleteWalk] at hx
      by_cases hj : 1 < j
      · rw [if_pos hj] at hx
        have hx' := ih (j / 2) _ x v hx
        by_cases hc : c (j ^^^ 1)
        · rw [if_pos hc] at hx'
          rw [mpErase] at hx'
          by_cases hxk : x = j ^^^ 1
          · rw [if_pos hxk] at hx'
            exact Option.noConfusion hx'
          · rw [if_neg hxk] at hx'
            exact hx'
        · rw [if_neg hc] at hx'
          exact hx'
      · rw [if_neg hj] at hx
        exact hx

theorem deleteFold_value (c : Nat → Bool) (half : Nat)
    (pairs : List (List Bytes × Nat)) :
    ∀ (m : Nat → Option Bytes) (x : Nat) (v : Bytes),
      (pairs.foldl (fun m p => mpDeleteWalk c (p.2 + half) (p.2 + half) m) m) x =
          some v → m x = some v := by
  induction pairs with
  | nil => intro m x v hx; exact hx
  | cons p rest ih =>
      intro m x v hx
      rw [List.foldl_cons] at hx
      exact mpDeleteWalk_value c _ _ m x v (ih _ x v hx)

theorem generateMultiProof_eq (t : MerkleTree) (vs : List Bytes)
    (pairs : List (List Bytes × Nat)) (hcs : collectSingles t vs = some pairs)
    (hv2 : ¬ t.Nodes.length / 2 = 0) (hne : pairs ≠ []) :
    GenerateMultiProof t vs = .ok
      { Values := t.Nodes.length / 2
        Hashes :=
          pairs.foldl
            (fun m p =>
              mpDeleteWalk
                (pairs.foldl
                  (fun mc p => mpAssignWalk p.1 (p.2 + (t.Nodes.length + 1) / 2)
                    (p.2 + (t.Nodes.length + 1) / 2) 0 mc)
                  (mpEmpty, fun _ => false)).2
                (p.2 + (t.Nodes.length + 1) / 2) (p.2 + (t.Nodes.length + 1) / 2) m)
            (pairs.foldl
              (fun mc p => mpAssignWalk p.1 (p.2 + (t.Nodes.length + 1) / 2)
                (p.2 + (t.Nodes.length + 1) / 2) 0 mc)
              (mpEmpty, fun _ => false)).1
        Indices := pairs.map Prod.snd } := by
  unfold GenerateMultiProof
  rw [hcs]
  simp only []
  unfold NewMultiProof
  rw [if_neg hv2, if_neg (by simp [List.isEmpty_iff, hne])]

theorem getD_map {α β : Type} (l : List α) (f : α → β) (i : Nat) (d : β) (d' : α)
    (hi : i < l.length) : (l.map f).getD i d = f (l.getD i d') := by
  rw [List.getD_eq_getElem?_getD, List.getElem?_map, List.getElem?_eq_getElem hi,
    List.getD_eq_getElem?_getD, List.getElem?_eq_getElem hi]
  simp

theorem newTree_HRec (data : List Bytes) (salt : Bool) (hh : HashTy)
    (t : MerkleTree) (ht : NewTree data salt false hh = .ok t) :
    ∀ i, 1 ≤ i → i < 2 ^ clog2 data.length →
      t.Nodes.getD i [] =
        hh.hashFn [t.Nodes.getD (2 * i) [], t.Nodes.getD (2 * i + 1) []] := by
  intro i h1 h2
  rw [newTree_getD_branch data salt false hh t ht i h1 h2, combineBranch_false]

theorem multiproofRoundtripUnsorted (hh : HashTy) (salt : Bool)
    (data : List Bytes) (t : MerkleTree) (ht : NewTree data salt false hh = .ok t)
    (vs : List Bytes) (mp : MultiProof) (hmp : GenerateMultiProof t vs = .ok mp) :
    (VerifyMultiProofUsing vs salt mp t.Root hh).1 = true := by
  have hData : t.Data = data := newTree_Data_unsorted data salt hh t ht
  have hLen : t.Nodes.length = 2 * 2 ^ clog2 data.length :=
    newTree_nodes_length data salt false hh t ht
  have hp1 : (1:Nat) ≤ 2 ^ clog2 data.length := Nat.one_le_two_pow
  have hnN : data.length ≤ 2 ^ clog2 data.length := le_pow_clog2 data.length
  have hpows : (2:Nat) ^ (clog2 data.length + 1) = 2 * 2 ^ clog2 data.length := by
    rw [pow_succ']
  have hhalf : (t.Nodes.length + 1) / 2 = 2 ^ clog2 data.length := by omega
  have hval : t.Nodes.length / 2 = 2 ^ clog2 data.length := by omega
  cases hcs : collectSingles t vs with
  | none =>
      unfold GenerateMultiProof at hmp
      rw [hcs] at hmp
      simp at hmp
  | some pairs =>
      have hpairs_ne : pairs ≠ [] := by
        intro hnil
        subst hnil
        unfold GenerateMultiProof at hmp
        rw [hcs] at hmp
        simp only [] at hmp
        unfold NewMultiProof at hmp
        rw [if_neg (by omega)] at hmp
        simp at hmp
      rw [generateMultiProof_eq t vs pairs hcs (by omega) hpairs_ne] at hmp
      simp only [Except.ok.injEq] at hmp
      subst hmp
      obtain ⟨hplen, hpspec⟩ := collectSingles_spec t vs pairs hcs
      have hLenD : t.Nodes.length = 2 * 2 ^ clog2 t.Data.length := by
        rw [hData]
        exact hLen
      have hmem : ∀ p ∈ pairs, ∃ i, i < vs.length ∧ pairs.getD i ([], 0) = p := by
        intro p hp
        obtain ⟨j, hj, hjp⟩ := List.mem_iff_getElem.1 hp
        exact ⟨j, by omega, by rw [List.getD_eq_getElem pairs ([], 0) hj, hjp]⟩
      have hidxlt : ∀ p ∈ pairs, p.2 < data.length := by
        intro p hp
        obtain ⟨i, hi, hip⟩ := hmem p hp
        have := (generateProof0_spec t hLenD _ _ (hpspec _ hi)).2.1
        rw [hip, hData] at this
        exact this
      have hbnd : ∀ p ∈ pairs,
          2 ^ clog2 data.length ≤ p.2 + 2 ^ clog2 data.length ∧
            p.2 + 2 ^ clog2 data.length < 2 ^ (clog2 data.length + 1) := by
        intro p hp
        have := hidxlt p hp
        omega
      have hsib : ∀ p ∈ pairs, ∀ k, k < clog2 data.length →
          p.1.getD k [] =
            t.Nodes.getD (((p.2 + 2 ^ clog2 data.length) / 2 ^ k) ^^^ 1) [] := by
        intro p hp k hk
        obtain ⟨i, hi, hip⟩ := hmem p hp
        have hchar := (generateProof0_spec t hLenD _ _ (hpspec _ hi)).2.2
        rw [hip] at hchar
        simp only [hData] at hchar
        rw [hchar, getD_map_range _ _ _ _ hk]
      simp only [VerifyMultiProofUsing, MerkleTree.Root, hval, hhalf]
      set mcG := pairs.foldl
        (fun mc p => mpAssignWalk p.1 (p.2 + 2 ^ clog2 data.length)
          (p.2 + 2 ^ clog2 data.length) 0 mc)
        ((mpEmpty, fun _ => false) : (Nat → Option Bytes) × (Nat → Bool)) with hmcG
      set prunedM := pairs.foldl
        (fun m p => mpDeleteWalk mcG.2 (p.2 + 2 ^ clog2 data.length)
          (p.2 + 2 ^ clog2 data.length) m) mcG.1 with hpruned
      set m1 := mpLeafInserts hh salt vs (2 ^ clog2 data.length) 0
        (List.map Prod.snd pairs) prunedM with hm1
      have HRec := newTree_HRec data salt hh t ht
      have hsound_mcG : ∀ x v, mcG.1 x = some v → v = t.Nodes.getD x [] := by
        rw [hmcG]
        exact assignFold_sound t.Nodes (2 ^ clog2 data.length)
          (clog2 data.length) pairs hbnd hsib (mpEmpty, fun _ => false)
          (fun x v hx => by simp [mpEmpty] at hx)
      have hsound_prunedM : ∀ x v, prunedM x = some v → v = t.Nodes.getD x [] := by
        intro x v hx
        rw [hpruned] at hx
        exact hsound_mcG x v (deleteFold_value mcG.2 _ pairs mcG.1 x v hx)
      have hleafval : ∀ i, i < (List.map Prod.snd pairs).length →
          leafDigest hh salt (vs.getD (0 + i) []) ((List.map Prod.snd pairs).getD i 0) =
            t.Nodes.getD
              ((List.map Prod.snd pairs).getD i 0 + 2 ^ clog2 data.length) [] := by
        intro i hi
        simp only [List.length_map] at hi
        have hiv : i < vs.length := by omega
        have hgd : (List.map Prod.snd pairs).getD i 0 = (pairs.getD i ([], 0)).2 :=
          getD_map pairs Prod.snd i 0 ([], 0) hi
        have hspec := generateProof0_spec t hLenD _ _ (hpspec i hiv)
        have hvi : data.getD (pairs.getD i ([], 0)).2 [] = vs.getD i [] := by
          have := indexOfData_getD _ _ _ hspec.1
          rw [hData] at this
          exact this
        have hlt : (pairs.getD i ([], 0)).2 < data.length := by
          have := hspec.2.1
          rw [hData] at this
          exact this
        rw [hgd, Nat.zero_add,
          show (pairs.getD i ([], 0)).2 + 2 ^ clog2 data.length =
            2 ^ clog2 data.length + (pairs.getD i ([], 0)).2 by omega,
          newTree_getD_leaf_unsorted data salt hh t ht _ hlt, hvi]
      have hsound_m1 : ∀ x v, m1 x = some v → v = t.Nodes.getD x [] := by
        rw [hm1]
        exact mpLeafInserts_sound hh salt vs (2 ^ clog2 data.length) t.Nodes
          (List.map Prod.snd pairs) 0 prunedM hsound_prunedM hleafval
      have hA1 : ∀ x, (x = 1 ∨
          onWalkP pairs (2 ^ clog2 data.length) (clog2 data.length) x) → 1 ≤ x := by
        rintro x (rfl | ⟨p, hp, k, hk, rfl⟩)
        · omega
        · have h1 := div_pow_lower (p.2 + 2 ^ clog2 data.length)
            (clog2 data.length) k (hbnd p hp).1 (by omega)
          have h2 : (1:Nat) ≤ 2 ^ (clog2 data.length - k) := Nat.one_le_two_pow
          omega
      have hcover : ∀ c x,
          onWalkP pairs (2 ^ clog2 data.length) (clog2 data.length) c →
          c / 2 = x → 2 ≤ c →
          (((2 * x = 1 ∨
              onWalkP pairs (2 ^ clog2 data.length) (clog2 data.length) (2 * x)) ∨
            (sibKeyP pairs (2 ^ clog2 data.length) (clog2 data.length) (2 * x) ∧
              ¬ onWalkP pairs (2 ^ clog2 data.length) (clog2 data.length) (2 * x))) ∧
          ((2 * x + 1 = 1 ∨
              onWalkP pairs (2 ^ clog2 data.length) (clog2 data.length) (2 * x + 1)) ∨
            (sibKeyP pairs (2 ^ clog2 data.length) (clog2 data.length) (2 * x + 1) ∧
              ¬ onWalkP pairs (2 ^ clog2 data.length) (clog2 data.length)
                (2 * x + 1)))) := by
        intro c x hcW hcx hc2
        have hsibc : sibKeyP pairs (2 ^ clog2 data.length) (clog2 data.length)
            (c ^^^ 1) := by
          obtain ⟨p, hp, k, hk, rfl⟩ := hcW
          exact ⟨p, hp, k, hk, rfl⟩
        by_cases hc : c % 2 = 0
        · have h2x : 2 * x = c := by omega
          have h2x1 : 2 * x + 1 = c ^^^ 1 := by
            rw [xor_one_of_even c hc]
            omega
          constructor
          · rw [h2x]
            exact Or.inl (Or.inr hcW)
          · rw [h2x1]
            by_cases hW : onWalkP pairs (2 ^ clog2 data.length)
                (clog2 data.length) (c ^^^ 1)
            · exact Or.inl (Or.inr hW)
            · exact Or.inr ⟨hsibc, hW⟩
        · have h2x1 : 2 * x + 1 = c := by omega
          have h2x : 2 * x = c ^^^ 1 := by
            rw [xor_one_of_odd c (by omega)]
            omega
          constructor
          · rw [h2x]
            by_cases hW : onWalkP pairs (2 ^ clog2 data.length)
                (clog2 data.length) (c ^^^ 1)
            · exact Or.inl (Or.inr hW)
            · exact Or.inr ⟨hsibc, hW⟩
          · rw [h2x1]
            exact Or.inl (Or.inr hcW)
      have hchild : ∀ x, (x = 1 ∨
          onWalkP pairs (2 ^ clog2 data.length) (clog2 data.length) x) →
          x < 2 ^ clog2 data.length →
          (((2 * x = 1 ∨
              onWalkP pairs (2 ^ clog2 data.length) (clog2 data.length) (2 * x)) ∨
            (sibKeyP pairs (2 ^ clog2 data.length) (clog2 data.length) (2 * x) ∧
              ¬ onWalkP pairs (2 ^ clog2 data.length) (clog2 data.length) (2 * x))) ∧
          ((2 * x + 1 = 1 ∨
              onWalkP pairs (2 ^ clog2 data.length) (clog2 data.length) (2 * x + 1)) ∨
            (sibKeyP pairs (2 ^ clog2 data.length) (clog2 data.length) (2 * x + 1) ∧
              ¬ onWalkP pairs (2 ^ clog2 data.length) (clog2 data.length)
                (2 * x + 1)))) := by
        rintro x (rfl | ⟨p, hp, k, hk, rfl⟩) hxL
        · have hL1 : 1 ≤ clog2 data.length := by
            by_contra hL0
            push_neg at hL0
            have hL00 : clog2 data.length = 0 := by omega
            rw [hL00] at hxL
            simp at hxL
          obtain ⟨p0, hp0⟩ : ∃ p, p ∈ pairs := by
            cases pairs with
            | nil => exact absurd rfl hpairs_ne
            | cons a l => exact ⟨a, by simp⟩
          have hcW : onWalkP pairs (2 ^ clog2 data.length) (clog2 data.length)
              ((p0.2 + 2 ^ clog2 data.length) / 2 ^ (clog2 data.length - 1)) :=
            ⟨p0, hp0, clog2 data.length - 1, by omega, rfl⟩
          have hcdiv : (p0.2 + 2 ^ clog2 data.length) /
              2 ^ (clog2 data.length - 1) / 2 = 1 := by
            have e : (p0.2 + 2 ^ clog2 data.length) /
                2 ^ (clog2 data.length - 1) / 2 =
                (p0.2 + 2 ^ clog2 data.length) / 2 ^ clog2 data.length := by
              rw [← div_pow_succ, show clog2 data.length - 1 + 1 =
                clog2 data.length by omega]
            rw [e]
            have hlow := div_pow_lower (p0.2 + 2 ^ clog2 data.length)
              (clog2 data.length) (clog2 data.length) (hbnd p0 hp0).1 le_rfl
            have hup := div_pow_upper (p0.2 + 2 ^ clog2 data.length)
              (clog2 data.length) (clog2 data.length) (hbnd p0 hp0).2 le_rfl
            simp only [Nat.sub_self, pow_zero] at hlow
            rw [show clog2 data.length + 1 - clog2 data.length = 1 by omega,
              pow_one] at hup
            omega
          have hc2 : 2 ≤ (p0.2 + 2 ^ clog2 data.length) /
              2 ^ (clog2 data.length - 1) := by
            have hlow := div_pow_lower (p0.2 + 2 ^ clog2 data.length)
              (clog2 data.length) (clog2 data.length - 1) (hbnd p0 hp0).1 (by omega)
            rw [show clog2 data.length - (clog2 data.length - 1) = 1 by omega,
              pow_one] at hlow
            exact hlow
          exact hcover _ 1 hcW hcdiv hc2
        · have hk1 : 1 ≤ k := by
            by_contra hk0
            push_neg at hk0
            have hk00 : k = 0 := by omega
            rw [hk00, pow_zero, Nat.div_one] at hxL
            have := (hbnd p hp).1
            omega
          have hcW : onWalkP pairs (2 ^ clog2 data.length) (clog2 data.length)
              ((p.2 + 2 ^ clog2 data.length) / 2 ^ (k - 1)) :=
            ⟨p, hp, k - 1, by omega, rfl⟩
          have hcdiv : (p.2 + 2 ^ clog2 data.length) / 2 ^ (k - 1) / 2 =
              (p.2 + 2 ^ clog2 data.length) / 2 ^ k := by
            rw [← div_pow_succ, show k - 1 + 1 = k by omega]
          have hc2 : 2 ≤ (p.2 + 2 ^ clog2 data.length) / 2 ^ (k - 1) := by
            have hlow := div_pow_lower (p.2 + 2 ^ clog2 data.length)
              (clog2 data.length) (k - 1) (hbnd p hp).1 (by omega)
            have hmono : (2:Nat) ^ 1 ≤ 2 ^ (clog2 data.length - (k - 1)) :=
              Nat.pow_le_pow_right (by norm_num) (by omega)
            rw [pow_one] at hmono
            omega
          exact hcover _ _ hcW hcdiv hc2
      have hres : ∀ x, (x = 1 ∨
          onWalkP pairs (2 ^ clog2 data.length) (clog2 data.length) x) →
          2 ^ clog2 data.length - 1 < x → m1 x = some (t.Nodes.getD x []) := by
        rintro x (rfl | ⟨p, hp, k, hk, rfl⟩) hx
        · have hL0 : clog2 data.length = 0 := by
            by_contra hL
            have : (2:Nat) ^ 1 ≤ 2 ^ clog2 data.length :=
              Nat.pow_le_pow_right (by norm_num) (by omega)
            rw [pow_one] at this
            omega
          obtain ⟨p0, hp0⟩ : ∃ p, p ∈ pairs := by
            cases pairs with
            | nil => exact absurd rfl hpairs_ne
            | cons a l => exact ⟨a, by simp⟩
          have hidx0 : p0.2 = 0 := by
            have h1 := hidxlt p0 hp0
            rw [hL0] at hnN
            simp at hnN
            omega
          have hpres : (m1 (p0.2 + 2 ^ clog2 data.length)).isSome = true := by
            rw [hm1]
            exact mpLeafInserts_present hh salt vs (2 ^ clog2 data.length)
              (List.map Prod.snd pairs) 0 prunedM p0.2
              (List.mem_map.2 ⟨p0, hp0, rfl⟩)
          have hx1 : p0.2 + 2 ^ clog2 data.length = 1 := by
            rw [hidx0, hL0]
            simp
          rw [hx1] at hpres
          obtain ⟨v, hv⟩ := Option.isSome_iff_exists.1 hpres
          rw [hv, hsound_m1 _ _ hv]
        · have hk0 : k = 0 := by
            by_contra hkk
            have hup := div_pow_upper (p.2 + 2 ^ clog2 data.length)
              (clog2 data.length) k (hbnd p hp).2 (by omega)
            have hmono : (2:Nat) ^ (clog2 data.length + 1 - k) ≤
                2 ^ clog2 data.length :=
              Nat.pow_le_pow_right (by norm_num) (by omega)
            omega
          simp only [hk0, pow_zero, Nat.div_one]
          have hpres : (m1 (p.2 + 2 ^ clog2 data.length)).isSome = true := by
            rw [hm1]
            exact mpLeafInserts_present hh salt vs (2 ^ clog2 data.length)
              (List.map Prod.snd pairs) 0 prunedM p.2
              (List.mem_map.2 ⟨p, hp, rfl⟩)
          obtain ⟨v, hv⟩ := Option.isSome_iff_exists.1 hpres
          rw [hv, hsound_m1 _ _ hv]
      have hsrv : ∀ y,
          (sibKeyP pairs (2 ^ clog2 data.length) (clog2 data.length) y ∧
            ¬ onWalkP pairs (2 ^ clog2 data.length) (clog2 data.length) y) →
          m1 y = some (t.Nodes.getD y []) := by
        rintro y ⟨⟨p, hp, k, hk, hkey⟩, hnW⟩
        have huntouch : m1 y = prunedM y := by
          rw [hm1]
          apply mpLeafInserts_untouched
          intro idx hidx hyeq
          obtain ⟨q, hq, rfl⟩ := List.mem_map.1 hidx
          exact hnW ⟨q, hq, 0, by omega, by simpa using hyeq⟩
        have hcalcF : mcG.2 y = false := by
          cases hb2 : mcG.2 y with
          | false => rfl
          | true =>
              exfalso
              apply hnW
              rw [hmcG] at hb2
              rcases (assignFold_calc (2 ^ clog2 data.length) (clog2 data.length)
                  pairs hbnd (mpEmpty, fun _ => false) y).1 hb2 with hfa | hW
              · simp at hfa
              · exact hW
        have hprun : prunedM y = mcG.1 y := by
          rw [hpruned]
          exact deleteFold_calc_false mcG.2 (2 ^ clog2 data.length) pairs mcG.1 y
            hcalcF
        have hpresG : (mcG.1 (((p.2 + 2 ^ clog2 data.length) / 2 ^ k) ^^^ 1)).isSome
            = true := by
          rw [hmcG]
          exact assignFold_present (2 ^ clog2 data.length) (clog2 data.length)
            pairs hbnd _ p hp k hk
        rw [huntouch, hprun, hkey]
        obtain ⟨v, hv⟩ := Option.isSome_iff_exists.1 hpresG
        rw [hv, hsound_mcG _ _ hv]
      have hroot := mpCompute_resolve hh t.Nodes (clog2 data.length) HRec
        (fun x => x = 1 ∨
          onWalkP pairs (2 ^ clog2 data.length) (clog2 data.length) x)
        (fun y => sibKeyP pairs (2 ^ clog2 data.length) (clog2 data.length) y ∧
          ¬ onWalkP pairs (2 ^ clog2 data.length) (clog2 data.length) y)
        hA1 hchild (2 ^ clog2 data.length - 1) m1 (by omega) hsound_m1 hres hsrv
        1 (Or.inl rfl)
      rw [hroot]
      simp

/-! ### Multiproof size accounting -/

theorem newTree_Data_length (data : List Bytes) (salt sorted : Bool)
    (h : HashTy) (t : MerkleTree) (ht : NewTree data salt sorted h = .ok t) :
    t.Data.length = data.length := by
  obtain ⟨hD, -, -⟩ := newTree_fields data salt sorted h t ht
  rw [hD, List.length_map, createLeaves_length]

theorem dedup_length_lt {β : Type} [DecidableEq β] (l : List β)
    (h : ¬ l.Nodup) : l.dedup.length < l.length := by
  have hsub := l.dedup_sublist
  have hle := hsub.length_le
  rcases Nat.lt_or_ge l.dedup.length l.length with hlt | hge
  · exact hlt
  · exfalso
    apply h
    have heq : l.dedup = l := hsub.eq_of_length (by omega)
    rw [← heq]
    exact l.nodup_dedup

theorem pair_sublist_flatMap {α β : Type} (d : α) (f : α → List β) (x : β) :
    ∀ (l : List α) (i j : Nat), i < j → j < l.length →
      x ∈ f (l.getD i d) → x ∈ f (l.getD j d) →
      List.Sublist [x, x] (l.flatMap f) := by
  intro l
  induction l with
  | nil => intro i j hij hj; simp at hj
  | cons a rest ih =>
      intro i j hij hj hxi hxj
      cases i with
      | zero =>
          obtain ⟨j', rfl⟩ : ∃ j', j = j' + 1 := ⟨j - 1, by omega⟩
          simp only [List.getD_cons_zero] at hxi
          simp only [List.getD_cons_succ] at hxj
          have hmem : x ∈ rest.flatMap f := by
            apply List.mem_flatMap.2
            refine ⟨rest.getD j' d, ?_, hxj⟩
            have hj' : j' < rest.length := by simpa using hj
            rw [List.getD_eq_getElem rest d hj']
            exact List.getElem_mem hj'
          have h1 : List.Sublist [x] (f a) := List.singleton_sublist.2 hxi
          have h2 : List.Sublist [x] (rest.flatMap f) := List.singleton_sublist.2 hmem
          have := List.Sublist.append h1 h2
          simpa using this
      | succ i' =>
          obtain ⟨j', rfl⟩ : ∃ j', j = j' + 1 := ⟨j - 1, by omega⟩
          simp only [List.getD_cons_succ] at hxi hxj
          have hrec := ih i' j' (by omega) (by simpa using hj) hxi hxj
          have hstep : List.Sublist (rest.flatMap f) ((a :: rest).flatMap f) := by
            rw [List.flatMap_cons]
            exact List.sublist_append_right (f a) (rest.flatMap f)
          exact hrec.trans hstep

theorem sum_map_const {α : Type} (l : List α) (c : Nat) :
    (l.map (fun _ => c)).sum = l.length * c := by
  induction l with
  | nil => simp
  | cons a rest ih => simp [ih]; ring

theorem singlesSum (t : MerkleTree)
    (hLenD : t.Nodes.length = 2 * 2 ^ clog2 t.Data.length) :
    ∀ (vs : List Bytes) (pairs : List (List Bytes × Nat)),
      collectSingles t vs = some pairs →
      (vs.map (fun v =>
        match GenerateProof t v 0 with
        | .ok p => p.Hashes.length
        | _ => 0)).sum = vs.length * clog2 t.Data.length := by
  intro vs
  induction vs with
  | nil => intro pairs _; simp
  | cons v rest ih =>
      intro pairs h
      rw [collectSingles] at h
      cases hgp : GenerateProof t v 0 with
      | ok p =>
          rw [hgp] at h
          cases hrest : collectSingles t rest with
          | none => rw [hrest] at h; simp at h
          | some ps =>
              have hlen : p.Hashes.length = clog2 t.Data.length := by
                rw [(generateProof0_spec t hLenD v p hgp).2.2, List.length_map,
                  List.length_range]
              rw [List.map_cons, List.sum_cons, ih ps hrest, hgp]
              simp only [List.length_cons, hlen]
              ring
      | dataNotFound => rw [hgp] at h; simp at h
      | panic => rw [hgp] at h; simp at h

theorem multiproofSizeBound (hh : HashTy) (salt sorted : Bool)
    (data : List Bytes) (t : MerkleTree)
    (ht : NewTree data salt sorted hh = .ok t)
    (vs : List Bytes) (mp : MultiProof) (hmp : GenerateMultiProof t vs = .ok mp) :
    (∀ x, (mp.Hashes x).isSome = true → x < t.Nodes.length) ∧
      mapCard mp.Hashes t.Nodes.length ≤
        (vs.map (fun v =>
          match GenerateProof t v 0 with
          | .ok p => p.Hashes.length
          | _ => 0)).sum ∧
      ((∃ i1 i2 a, i1 < i2 ∧ i2 < mp.Indices.length ∧
          mp.Indices.getD i1 0 ≠ mp.Indices.getD i2 0 ∧
          a ∈ walkChain 1 (mp.Indices.getD i1 0 + (t.Nodes.length + 1) / 2)
                (mp.Indices.getD i1 0 + (t.Nodes.length + 1) / 2) ∧
          a ∈ walkChain 1 (mp.Indices.getD i2 0 + (t.Nodes.length + 1) / 2)
                (mp.Indices.getD i2 0 + (t.Nodes.length + 1) / 2)) →
        mapCard mp.Hashes t.Nodes.length <
          (vs.map (fun v =>
            match GenerateProof t v 0 with
            | .ok p => p.Hashes.length
            | _ => 0)).sum) := by
  have hDlen : t.Data.length = data.length :=
    newTree_Data_length data salt sorted hh t ht
  have hLen : t.Nodes.length = 2 * 2 ^ clog2 data.length :=
    newTree_nodes_length data salt sorted hh t ht
  have hp1 : (1:Nat) ≤ 2 ^ clog2 data.length := Nat.one_le_two_pow
  have hnN : data.length ≤ 2 ^ clog2 data.length := le_pow_clog2 data.length
  have hpows : (2:Nat) ^ (clog2 data.length + 1) = 2 * 2 ^ clog2 data.length := by
    rw [pow_succ']
  have hhalf : (t.Nodes.length + 1) / 2 = 2 ^ clog2 data.length := by omega
  have hval : t.Nodes.length / 2 = 2 ^ clog2 data.length := by omega
  have hLenD : t.Nodes.length = 2 * 2 ^ clog2 t.Data.length := by
    rw [hDlen]
    exact hLen
  cases hcs : collectSingles t vs with
  | none =>
      unfold GenerateMultiProof at hmp
      rw [hcs] at hmp
      simp at hmp
  | some pairs =>
      have hpairs_ne : pairs ≠ [] := by
        intro hnil
        subst hnil
        unfold GenerateMultiProof at hmp
        rw [hcs] at hmp
        simp only [] at hmp
        unfold NewMultiProof at hmp
        rw [if_neg (by omega)] at hmp
        simp at hmp
      rw [generateMultiProof_eq t vs pairs hcs (by omega) hpairs_ne] at hmp
      simp only [Except.ok.injEq] at hmp
      subst hmp
      obtain ⟨hplen, hpspec⟩ := collectSingles_spec t vs pairs hcs
      have hmem : ∀ p ∈ pairs, ∃ i, i < vs.length ∧ pairs.getD i ([], 0) = p := by
        intro p hp
        obtain ⟨j, hj, hjp⟩ := List.mem_iff_getElem.1 hp
        exact ⟨j, by omega, by rw [List.getD_eq_getElem pairs ([], 0) hj, hjp]⟩
      have hidxlt : ∀ p ∈ pairs, p.2 < data.length := by
        intro p hp
        obtain ⟨i, hi, hip⟩ := hmem p hp
        have := (generateProof0_spec t hLenD _ _ (hpspec _ hi)).2.1
        rw [hip, hDlen] at this
        exact this
      have hbnd : ∀ p ∈ pairs,
          2 ^ clog2 data.length ≤ p.2 + 2 ^ clog2 data.length ∧
            p.2 + 2 ^ clog2 data.length < 2 ^ (clog2 data.length + 1) := by
        intro p hp
        have := hidxlt p hp
        omega
      simp only [hval, hhalf]
      set mcG := pairs.foldl
        (fun mc p => mpAssignWalk p.1 (p.2 + 2 ^ clog2 data.length)
          (p.2 + 2 ^ clog2 data.length) 0 mc)
        ((mpEmpty, fun _ => false) : (Nat → Option Bytes) × (Nat → Bool)) with hmcG
      set prunedM := pairs.foldl
        (fun m p => mpDeleteWalk mcG.2 (p.2 + 2 ^ clog2 data.length)
          (p.2 + 2 ^ clog2 data.length) m) mcG.1 with hpruned
      set keysList := pairs.flatMap
        (fun p => (List.range (clog2 data.length)).map
          (fun k => ((p.2 + 2 ^ clog2 data.length) / 2 ^ k) ^^^ 1)) with hkl
      have hkeys : ∀ x, (prunedM x).isSome = true → x ∈ keysList := by
        intro x hx
        rw [hpruned] at hx
        have hx' := deleteFold_subset mcG.2 (2 ^ clog2 data.length) pairs mcG.1 x hx
        rw [hmcG] at hx'
        rcases assignFold_keys (2 ^ clog2 data.length) (clog2 data.length) pairs
            hbnd (mpEmpty, fun _ => false) x hx' with hemp | ⟨p, hp, k, hk, rfl⟩
        · simp [mpEmpty] at hemp
        · rw [hkl]
          exact List.mem_flatMap.2 ⟨p, hp,
            List.mem_map.2 ⟨k, List.mem_range.2 hk, rfl⟩⟩
      have hkeybound : ∀ x, x ∈ keysList → x < t.Nodes.length := by
        intro x hx
        rw [hkl] at hx
        obtain ⟨p, hp, hx'⟩ := List.mem_flatMap.1 hx
        obtain ⟨k, hk, rfl⟩ := List.mem_map.1 hx'
        rw [List.mem_range] at hk
        have hw1 : 2 ^ (clog2 data.length - k) ≤
            (p.2 + 2 ^ clog2 data.length) / 2 ^ k :=
          div_pow_lower _ _ k (hbnd p hp).1 (by omega)
        have hw2 : (p.2 + 2 ^ clog2 data.length) / 2 ^ k <
            2 ^ (clog2 data.length - k + 1) := by
          have := div_pow_upper _ (clog2 data.length) k (hbnd p hp).2 (by omega)
          rw [show clog2 data.length + 1 - k = clog2 data.length - k + 1 by omega]
            at this
          exact this
        have hx3 := xor_one_range (clog2 data.length - k) _ (by omega) hw1 hw2
        have hmono : (2:Nat) ^ (clog2 data.length - k + 1) ≤
            2 ^ (clog2 data.length + 1) :=
          Nat.pow_le_pow_right (by norm_num) (by omega)
        omega
      have hcard : mapCard prunedM t.Nodes.length ≤ keysList.toFinset.card := by
        apply Finset.card_le_card
        intro x hx
        rw [Finset.mem_filter] at hx
        exact List.mem_toFinset.2 (hkeys x hx.2)
      have hdedup : keysList.toFinset.card = keysList.dedup.length :=
        keysList.card_toFinset
      have hkeyslen : keysList.length = pairs.length * clog2 data.length := by
        rw [hkl, List.length_flatMap]
        simp only [Function.comp_def, List.length_map, List.length_range]
        rw [sum_map_const]
      have hsum : (vs.map (fun v =>
          match GenerateProof t v 0 with
          | .ok p => p.Hashes.length
          | _ => 0)).sum = vs.length * clog2 data.length := by
        have := singlesSum t hLenD vs pairs hcs
        rw [hDlen] at this
        exact this
      refine ⟨?_, ?_, ?_⟩
      · intro x hx
        exact hkeybound x (hkeys x hx)
      · calc mapCard prunedM t.Nodes.length ≤ keysList.toFinset.card := hcard
          _ = keysList.dedup.length := hdedup
          _ ≤ keysList.length := keysList.dedup_sublist.length_le
          _ = pairs.length * clog2 data.length := hkeyslen
          _ = vs.length * clog2 data.length := by rw [hplen]
          _ = _ := hsum.symm
      · rintro ⟨i1, i2, a, hi12, hi2, -, ha1, ha2⟩
        simp only [List.length_map] at hi2
        have hi1 : i1 < pairs.length := by omega
        have hgdi1 : (List.map Prod.snd pairs).getD i1 0 =
            (pairs.getD i1 ([], 0)).2 := getD_map pairs Prod.snd i1 0 ([], 0) hi1
        have hgdi2 : (List.map Prod.snd pairs).getD i2 0 =
            (pairs.getD i2 ([], 0)).2 := getD_map pairs Prod.snd i2 0 ([], 0) hi2
        have hmem1 : pairs.getD i1 ([], 0) ∈ pairs := by
          rw [List.getD_eq_getElem pairs ([], 0) hi1]
          exact List.getElem_mem hi1
        have hmem2 : pairs.getD i2 ([], 0) ∈ pairs := by
          rw [List.getD_eq_getElem pairs ([], 0) hi2]
          exact List.getElem_mem hi2
        rw [hgdi1] at ha1
        rw [hgdi2] at ha2
        rw [walkChain_eq1 (clog2 data.length) _ _
          (hbnd _ hmem1).1 (hbnd _ hmem1).2 le_rfl] at ha1
        rw [walkChain_eq1 (clog2 data.length) _ _
          (hbnd _ hmem2).1 (hbnd _ hmem2).2 le_rfl] at ha2
        obtain ⟨k1, hk1, rfl⟩ := List.mem_map.1 ha1
        rw [List.mem_range] at hk1
        obtain ⟨k2, hk2, heq⟩ := List.mem_map.1 ha2
        rw [List.mem_range] at hk2
        have hx1 : ((pairs.getD i1 ([], 0)).2 + 2 ^ clog2 data.length) / 2 ^ k1 ^^^ 1
            ∈ (fun p => (List.range (clog2 data.length)).map
              (fun k => ((p.2 + 2 ^ clog2 data.length) / 2 ^ k) ^^^ 1))
              (pairs.getD i1 ([], 0)) :=
          List.mem_map.2 ⟨k1, List.mem_range.2 hk1, rfl⟩
        have hx2 : ((pairs.getD i1 ([], 0)).2 + 2 ^ clog2 data.length) / 2 ^ k1 ^^^ 1
            ∈ (fun p => (List.range (clog2 data.length)).map
              (fun k => ((p.2 + 2 ^ clog2 data.length) / 2 ^ k) ^^^ 1))
              (pairs.getD i2 ([], 0)) := by
          apply List.mem_map.2
          exact ⟨k2, List.mem_range.2 hk2, by rw [← heq]⟩
        have hsub := pair_sublist_flatMap ([], 0)
          (fun p => (List.range (clog2 data.length)).map
            (fun k => ((p.2 + 2 ^ clog2 data.length) / 2 ^ k) ^^^ 1))
          _ pairs i1 i2 hi12 hi2 hx1 hx2
        have hnodup : ¬ keysList.Nodup := by
          rw [List.nodup_iff_sublist]
          push_neg
          exact ⟨_, by rw [hkl]; exact hsub⟩
        have hstrict := dedup_length_lt keysList hnodup
        calc mapCard prunedM t.Nodes.length ≤ keysList.toFinset.card := hcard
          _ = keysList.dedup.length := hdedup
          _ < keysList.length := hstrict
          _ = pairs.length * clog2 data.length := hkeyslen
          _ = vs.length * clog2 data.length := by rw [hplen]
          _ = _ := hsum.symm

/-! ### Construction, lookup, layout and panic behaviour -/

theorem newTree_ok_iff (data : List Bytes) (salt sorted : Bool) (h : HashTy) :
    ((∃ t, NewTree data salt sorted h = .ok t) ↔ data ≠ []) ∧
      (data = [] →
        NewTree data salt sorted h = .error "tree must have at least 1 piece of data") := by
  constructor
  · constructor
    · rintro ⟨t, ht⟩ rfl
      simp [NewTree] at ht
    · intro hne
      unfold NewTree
      rw [if_neg (by simpa [List.isEmpty_iff] using hne)]
      exact ⟨_, rfl⟩
  · rintro rfl
    simp [NewTree]

theorem generateProof_lookup (t : MerkleTree) (v : Bytes) (hgt : Nat) :
    (GenerateProof t v hgt = .dataNotFound ↔ v ∉ t.Data) ∧
      (v ∈ t.Data → hgt ≤ clog2 t.Data.length →
        ∃ p, GenerateProof t v hgt = .ok p ∧
          t.Data.getD p.Index [] = v ∧ ∀ j, j < p.Index → t.Data.getD j [] ≠ v) := by
  constructor
  · constructor
    · intro hdnf
      rw [← indexOfData_eq_none]
      cases hidx : indexOfData t.Data v with
      | none => rfl
      | some idx =>
          exfalso
          unfold GenerateProof at hdnf
          rw [hidx] at hdnf
          simp only [] at hdnf
          by_cases hc : (clog2 t.Data.length : Int) - (hgt : Int) < 0
          · rw [if_pos hc] at hdnf
            exact GPResult.noConfusion hdnf
          · rw [if_neg hc] at hdnf
            exact GPResult.noConfusion hdnf
    · intro hnm
      have hnone : indexOfData t.Data v = none := (indexOfData_eq_none _ _).2 hnm
      unfold GenerateProof
      rw [hnone]
  · intro hv hgtL
    have hsome : (indexOfData t.Data v).isSome = true :=
      (indexOfData_isSome _ _).2 hv
    cases hidx : indexOfData t.Data v with
    | none => rw [hidx] at hsome; simp at hsome
    | some idx =>
        refine ⟨⟨(walkChain (2 ^ (hgt + 1) - 1) (idx + t.Nodes.length / 2)
            (idx + t.Nodes.length / 2)).map (fun j => t.Nodes.getD (j ^^^ 1) []),
          idx⟩, ?_, ?_, ?_⟩
        · unfold GenerateProof
          rw [hidx]
          simp only []
          rw [if_neg (by omega)]
        · exact indexOfData_getD _ _ _ hidx
        · exact indexOfData_first _ _ _ hidx

theorem newTree_layout (data : List Bytes) (salt sorted : Bool) (h : HashTy)
    (t : MerkleTree) (ht : NewTree data salt sorted h = .ok t) :
    t.Nodes.length = 2 * 2 ^ clog2 data.length ∧
      data.length ≤ 2 ^ clog2 data.length ∧
      (∀ m, data.length ≤ 2 ^ m → 2 ^ clog2 data.length ≤ 2 ^ m) ∧
      (∀ i, i < data.length →
        t.Nodes.getD (2 ^ clog2 data.length + i) [] =
          ((createLeaves h salt sorted data).getD i ([], [])).2) ∧
      (∀ i, data.length ≤ i → i < 2 ^ clog2 data.length →
        t.Nodes.getD (2 ^ clog2 data.length + i) [] =
          List.replicate h.hashLength 0) := by
  refine ⟨newTree_nodes_length data salt sorted h t ht, le_pow_clog2 data.length,
    ?_, ?_, ?_⟩
  · intro m hm
    exact Nat.pow_le_pow_right (by norm_num) (clog2_le_of_le_pow hm)
  · intro i hi
    exact newTree_getD_leaf data salt sorted h t ht i hi
  · intro i hi1 hi2
    exact newTree_getD_pad data salt sorted h t ht i hi1 hi2

theorem walkChain_nil (minI : Nat) (fuel i : Nat) (h : ¬ minI < i) :
    walkChain minI fuel i = [] := by
  cases fuel with
  | zero => rfl
  | succ f => rw [walkChain, if_neg h]

theorem generateProof_heights (data : List Bytes) (salt sorted : Bool)
    (hh : HashTy) (t : MerkleTree) (ht : NewTree data salt sorted hh = .ok t)
    (v : Bytes) (hv : v ∈ t.Data) :
    (∀ hgt, clog2 t.Data.length < hgt → GenerateProof t v hgt = .panic) ∧
      (∃ p, GenerateProof t v (clog2 t.Data.length) = .ok p ∧ p.Hashes = []) := by
  have hsome : (indexOfData t.Data v).isSome = true :=
    (indexOfData_isSome _ _).2 hv
  obtain ⟨idx, hidx⟩ : ∃ i, indexOfData t.Data v = some i := by
    cases hcase : indexOfData t.Data v with
    | none => rw [hcase] at hsome; simp at hsome
    | some i => exact ⟨i, rfl⟩
  have hDlen : t.Data.length = data.length :=
    newTree_Data_length data salt sorted hh t ht
  have hLen : t.Nodes.length = 2 * 2 ^ clog2 data.length :=
    newTree_nodes_length data salt sorted hh t ht
  have hidxn : idx < data.length := by
    have := indexOfData_lt _ _ _ hidx
    omega
  have hnN : data.length ≤ 2 ^ clog2 data.length := le_pow_clog2 data.length
  have hpows : (2:Nat) ^ (clog2 data.length + 1) = 2 * 2 ^ clog2 data.length := by
    rw [pow_succ']
  constructor
  · intro hgt hlt
    rw [hDlen] at hlt
    unfold GenerateProof
    rw [hidx]
    simp only []
    rw [if_pos (by rw [hDlen]; omega)]
  · refine ⟨⟨(walkChain (2 ^ (clog2 t.Data.length + 1) - 1)
        (idx + t.Nodes.length / 2) (idx + t.Nodes.length / 2)).map
        (fun j => t.Nodes.getD (j ^^^ 1) []), idx⟩, ?_, ?_⟩
    · unfold GenerateProof
      rw [hidx]
      simp only []
      rw [if_neg (by omega)]
    · simp only []
      rw [walkChain_nil _ _ _ (by rw [hDlen]; omega)]
      rfl

theorem multiproofIndicesOrder (t : MerkleTree) (vs : List Bytes) (mp : MultiProof)
    (hLen : t.Nodes.length = 2 * 2 ^ clog2 t.Data.length)
    (hmp : GenerateMultiProof t vs = .ok mp) :
    mp.Indices.length = vs.length ∧
      ∀ i, i < vs.length →
        indexOfData t.Data (vs.getD i []) = some (mp.Indices.getD i 0) := by
  cases hcs : collectSingles t vs with
  | none =>
      unfold GenerateMultiProof at hmp
      rw [hcs] at hmp
      simp at hmp
  | some pairs =>
      unfold GenerateMultiProof at hmp
      rw [hcs] at hmp
      simp only [] at hmp
      unfold NewMultiProof at hmp
      by_cases hv : t.Nodes.length / 2 = 0
      · rw [if_pos hv] at hmp
        simp at hmp
      · rw [if_neg hv] at hmp
        by_cases hie : (pairs.map Prod.snd).isEmpty = true
        · rw [if_pos hie] at hmp
          simp at hmp
        · rw [if_neg hie] at hmp
          simp only [Except.ok.injEq] at hmp
          subst hmp
          obtain ⟨hplen, hall⟩ := collectSingles_spec t vs pairs hcs
          refine ⟨by simpa using hplen, ?_⟩
          intro i hi
          have hgp := hall i hi
          have hspec := generateProof0_spec t hLen (vs.getD i []) _ hgp
          have hidx := hspec.1
          rw [hidx]
          congr 1
          exact (getD_map pairs Prod.snd i 0 ([], 0) (by omega)).symm

theorem verifyMultiProof_mutates (hh : HashTy) (salt : Bool) (dataL : List Bytes)
    (proof : MultiProof) (root : Bytes) :
    (∀ i, i < proof.Indices.length →
      (∀ j, i < j → j < proof.Indices.length →
        proof.Indices.getD j 0 ≠ proof.Indices.getD i 0) →
      (VerifyMultiProofUsing dataL salt proof root hh).2
          (proof.Indices.getD i 0 + proof.Values) =
        some (leafDigest hh salt (dataL.getD i []) (proof.Indices.getD i 0))) ∧
    ∀ k v,
      mpLeafInserts hh salt dataL proof.Values 0 proof.Indices proof.Hashes k
        = some v →
      (VerifyMultiProofUsing dataL salt proof root hh).2 k = some v := by
  constructor
  · intro i hi hnd
    show mpCompute hh (proof.Values - 1)
        (mpLeafInserts hh salt dataL proof.Values 0 proof.Indices proof.Hashes)
        (proof.Indices.getD i 0 + proof.Values) = _
    have hlast := mpLeafInserts_lastvalue hh salt dataL proof.Values
      proof.Indices 0 proof.Hashes i hi hnd
    exact mpCompute_preserves hh _ _ _ _ (by simpa using hlast)
  · intro k v hk
    exact mpCompute_preserves hh _ _ _ _ hk

/-! ### The claims -/

/-- Claim C1 (corrected).  The spec asserts the single-proof roundtrip for
every configuration; it holds for every tree built with the `sorted` flag
disabled: for every value `v` of the data and every height `hgt` with
`2^(hgt+1) ≤ 2N`, the generated proof verifies against the height-`hgt`
pollard.  (With `sorted` enabled the roundtrip fails; see the
counterexample theorem.) -/
theorem claimC1 (hh : HashTy) (salt : Bool) (data : List Bytes)
    (t : MerkleTree) (ht : NewTree data salt false hh = .ok t)
    (v : Bytes) (hv : v ∈ data) (hgt : Nat)
    (hpol : 2 ^ (hgt + 1) ≤ t.Nodes.length) :
    ∃ p, GenerateProof t v hgt = .ok p ∧
      VerifyProofUsing v salt p (t.Pollard hgt) hh = true :=
  verifyRoundtripUnsorted hh salt data t ht v hv hgt hpol

/-- Witness for C1: the unsorted example tree at height 1. -/
theorem claimC1_witness :
    ∃ p, GenerateProof unsortedTreeEx [3] 1 = .ok p ∧
      VerifyProofUsing [3] false p (unsortedTreeEx.Pollard 1) concatHash = true :=
  claimC1 concatHash false [[1], [2], [3], [4]] unsortedTreeEx rfl [3] (by decide)
    1 (by decide)

/-- Counterexample for C1: on the sorted example tree the honestly generated
height-0 proof for `[1]` is rejected by `VerifyProofUsing`, although the
height bound holds. -/
theorem claimC1_cex :
    NewTree [[1], [1, 1], [1, 1, 0], [2]] false true concatHash =
        .ok sortedTreeEx ∧
      GenerateProof sortedTreeEx [1] 0 = .ok sortedProofEx ∧
      2 ^ (0 + 1) ≤ sortedTreeEx.Nodes.length ∧
      VerifyProofUsing [1] false sortedProofEx (sortedTreeEx.Pollard 0)
        concatHash = false :=
  ⟨rfl, rfl, by decide, by decide⟩

/-- Claim C2 (corrected).  The spec asserts the multiproof roundtrip for
every configuration; it holds for every tree built with the `sorted` flag
disabled: whenever `GenerateMultiProof` succeeds on a value list, the
multiproof verifies against the tree root.  (With `sorted` enabled it
fails; see the counterexample theorem.) -/
theorem claimC2 (hh : HashTy) (salt : Bool) (data : List Bytes)
    (t : MerkleTree) (ht : NewTree data salt false hh = .ok t)
    (vs : List Bytes) (mp : MultiProof)
    (hmp : GenerateMultiProof t vs = .ok mp) :
    (VerifyMultiProofUsing vs salt mp t.Root hh).1 = true :=
  multiproofRoundtripUnsorted hh salt data t ht vs mp hmp

/-- Witness for C2: the subset `[[1],[2]]` of the unsorted example tree. -/
theorem claimC2_witness :
    (VerifyMultiProofUsing [[1], [2]] false unsortedMpEx unsortedTreeEx.Root
      concatHash).1 = true :=
  claimC2 concatHash false [[1], [2], [3], [4]] unsortedTreeEx rfl [[1], [2]]
    unsortedMpEx rfl

/-- Counterexample for C2: on the sorted example tree the honestly generated
multiproof for the subset `[[1]]` is rejected by `VerifyMultiProofUsing`. -/
theorem claimC2_cex :
    GenerateMultiProof sortedTreeEx [[1]] = .ok sortedMpEx ∧
      (VerifyMultiProofUsing [[1]] false sortedMpEx sortedTreeEx.Root
        concatHash).1 = false :=
  ⟨rfl, by decide⟩

/-- Claim C3 (corrected).  The spec says proof verification applies the
sort-before-hash rule when the tree is sorted; in the code
`generateProofHash` and `VerifyMultiProofUsing` combine digests in
index-parity order only and receive no sorted flag.  Amended concrete
statement: on the sorted example tree the code's verifier rejects the
generated single proof and multiproof, while the verifier that follows
the spec's sorted rule accepts the same proof. -/
theorem claimC3 :
    VerifyProofUsing [1] false sortedProofEx (sortedTreeEx.Pollard 0) concatHash
        = false ∧
      VerifyProofUsingSpec true [1] false sortedProofEx (sortedTreeEx.Pollard 0)
        concatHash = true ∧
      (VerifyMultiProofUsing [[1]] false sortedMpEx sortedTreeEx.Root
        concatHash).1 = false := by
  decide

/-- Counterexample for C3: the code's proof-hash recomputation differs from
the spec's sorted-rule recomputation on the sorted example proof. -/
theorem claimC3_cex :
    generateProofHash [1] false sortedProofEx concatHash ≠
      generateProofHashSpec true [1] false sortedProofEx concatHash := by
  decide

/-- Claim C4 (confirmed).  Every key of the multiproof's hash map is a node
index, the map's size is at most the sum of the hash counts of the
individual height-0 proofs of the queried values, and it is strictly
smaller whenever two proven leaves with distinct indices share a node on
their upward walks. -/
theorem claimC4 (hh : HashTy) (salt sorted : Bool)
    (data : List Bytes) (t : MerkleTree)
    (ht : NewTree data salt sorted hh = .ok t)
    (vs : List Bytes) (mp : MultiProof)
    (hmp : GenerateMultiProof t vs = .ok mp) :
    (∀ x, (mp.Hashes x).isSome = true → x < t.Nodes.length) ∧
      mapCard mp.Hashes t.Nodes.length ≤
        (vs.map (fun v =>
          match GenerateProof t v 0 with
          | .ok p => p.Hashes.length
          | _ => 0)).sum ∧
      ((∃ i1 i2 a, i1 < i2 ∧ i2 < mp.Indices.length ∧
          mp.Indices.getD i1 0 ≠ mp.Indices.getD i2 0 ∧
          a ∈ walkChain 1 (mp.Indices.getD i1 0 + (t.Nodes.length + 1) / 2)
                (mp.Indices.getD i1 0 + (t.Nodes.length + 1) / 2) ∧
          a ∈ walkChain 1 (mp.Indices.getD i2 0 + (t.Nodes.length + 1) / 2)
                (mp.Indices.getD i2 0 + (t.Nodes.length + 1) / 2)) →
        mapCard mp.Hashes t.Nodes.length <
          (vs.map (fun v =>
            match GenerateProof t v 0 with
            | .ok p => p.Hashes.length
            | _ => 0)).sum) :=
  multiproofSizeBound hh salt sorted data t ht vs mp hmp

/-- Witness for C4: the two-leaf subset of the unsorted example tree. -/
theorem claimC4_witness :
    mapCard unsortedMpEx.Hashes unsortedTreeEx.Nodes.length ≤
      (([[1], [2]] : List Bytes).map (fun v =>
        match GenerateProof unsortedTreeEx v 0 with
        | .ok p => p.Hashes.length
        | _ => 0)).sum :=
  (claimC4 concatHash false false [[1], [2], [3], [4]] unsortedTreeEx rfl
    [[1], [2]] unsortedMpEx rfl).2.1

/-- Claim C5 (confirmed).  `NewTree` fails exactly when the supplied value
list is empty: it then returns the dedicated error, and for every
non-empty list it returns a tree. -/
theorem claimC5 (data : List Bytes) (salt sorted : Bool) (h : HashTy) :
    ((∃ t, NewTree data salt sorted h = .ok t) ↔ data ≠ []) ∧
      (data = [] →
        NewTree data salt sorted h =
          .error "tree must have at least 1 piece of data") :=
  newTree_ok_iff data salt sorted h

/-- Witness for C5: a singleton value list yields a tree. -/
theorem claimC5_witness :
    ∃ t, NewTree [[5]] false false concatHash = .ok t :=
  ((claimC5 [[5]] false false concatHash).1).2 (by decide)

/-- Claim C6 (confirmed).  `GenerateProof` reports `data not found` exactly
when the value is byte-equal to no element of the tree's data; when the
value occurs and the height is admissible, the returned proof carries the
index of the first occurrence. -/
theorem claimC6 (t : MerkleTree) (v : Bytes) (hgt : Nat) :
    (GenerateProof t v hgt = .dataNotFound ↔ v ∉ t.Data) ∧
      (v ∈ t.Data → hgt ≤ clog2 t.Data.length →
        ∃ p, GenerateProof t v hgt = .ok p ∧
          t.Data.getD p.Index [] = v ∧ ∀ j, j < p.Index → t.Data.getD j [] ≠ v) :=
  generateProof_lookup t v hgt

/-- Witness for C6: an absent value in the two-leaf example tree. -/
theorem claimC6_witness :
    GenerateProof smallTreeEx [3] 0 = .dataNotFound :=
  ((claimC6 smallTreeEx [3] 0).1).2 (by decide)

/-- Claim C7 (confirmed).  Every tree returned by `NewTree` from `n ≥ 1`
values has `2N` nodes where `N = 2^⌈log₂ n⌉` is the smallest power of two
at least `n`; the leaf digests occupy indices `[N, N + n)` and each of the
`N - n` padding slots holds the all-zero byte string of the digest
length. -/
theorem claimC7 (data : List Bytes) (salt sorted : Bool) (h : HashTy)
    (t : MerkleTree) (ht : NewTree data salt sorted h = .ok t) :
    t.Nodes.length = 2 * 2 ^ clog2 data.length ∧
      data.length ≤ 2 ^ clog2 data.length ∧
      (∀ m, data.length ≤ 2 ^ m → 2 ^ clog2 data.length ≤ 2 ^ m) ∧
      (∀ i, i < data.length →
        t.Nodes.getD (2 ^ clog2 data.length + i) [] =
          ((createLeaves h salt sorted data).getD i ([], [])).2) ∧
      (∀ i, data.length ≤ i → i < 2 ^ clog2 data.length →
        t.Nodes.getD (2 ^ clog2 data.length + i) [] =
          List.replicate h.hashLength 0) :=
  newTree_layout data salt sorted h t ht

/-- Witness for C7: the node count of the unsorted example tree. -/
theorem claimC7_witness :
    unsortedTreeEx.Nodes.length =
      2 * 2 ^ clog2 ([[1], [2], [3], [4]] : List Bytes).length :=
  (claimC7 [[1], [2], [3], [4]] false false concatHash unsortedTreeEx rfl).1

/-- Claim C8 (corrected).  The spec says the multiproof's `Indices` list is
ascending; in the code it lists the proven leaf indices in the order the
values were supplied: `Indices` has one entry per queried value and
`Indices[i]` is the index of the first occurrence of the `i`-th value in
the tree's data. -/
theorem claimC8 (data : List Bytes) (salt sorted : Bool) (hh : HashTy)
    (t : MerkleTree) (ht : NewTree data salt sorted hh = .ok t)
    (vs : List Bytes) (mp : MultiProof)
    (hmp : GenerateMultiProof t vs = .ok mp) :
    mp.Indices.length = vs.length ∧
      ∀ i, i < vs.length →
        indexOfData t.Data (vs.getD i []) = some (mp.Indices.getD i 0) :=
  multiproofIndicesOrder t vs mp
    (by
      rw [newTree_Data_length data salt sorted hh t ht]
      exact newTree_nodes_length data salt sorted hh t ht) hmp

/-- Witness for C8: the reverse-order query on the two-leaf tree. -/
theorem claimC8_witness :
    reverseMpEx.Indices.length = ([[2], [1]] : List Bytes).length :=
  (claimC8 [[1], [2]] false false concatHash smallTreeEx rfl [[2], [1]]
    reverseMpEx rfl).1

/-- Counterexample for C8: querying the two-leaf tree in reverse data order
yields `Indices = [1, 0]`, which is not ascending. -/
theorem claimC8_cex :
    GenerateMultiProof smallTreeEx [[2], [1]] = .ok reverseMpEx ∧
      reverseMpEx.Indices = [1, 0] ∧
      ¬ List.Pairwise (fun a b => a ≤ b) reverseMpEx.Indices :=
  ⟨rfl, rfl, by decide⟩

/-- Claim C9 (confirmed).  `VerifyMultiProofUsing` mutates the proof's hash
map: the recomputed leaf digest of every proven index (taking the last
write when an index repeats) is present at key `index + Values` in the map
the call leaves behind, and every entry of the leaf-insertion pass
survives to the returned map — for any root, so whether verification
succeeds or fails. -/
theorem claimC9 (hh : HashTy) (salt : Bool) (dataL : List Bytes)
    (proof : MultiProof) (root : Bytes) :
    (∀ i, i < proof.Indices.length →
      (∀ j, j < proof.Indices.length → i < j →
        proof.Indices.getD j 0 ≠ proof.Indices.getD i 0) →
      (VerifyMultiProofUsing dataL salt proof root hh).2
          (proof.Indices.getD i 0 + proof.Values) =
        some (leafDigest hh salt (dataL.getD i []) (proof.Indices.getD i 0))) ∧
    ∀ k v,
      mpLeafInserts hh salt dataL proof.Values 0 proof.Indices proof.Hashes k
        = some v →
      (VerifyMultiProofUsing dataL salt proof root hh).2 k = some v := by
  obtain ⟨h1, h2⟩ := verifyMultiProof_mutates hh salt dataL proof root
  exact ⟨fun i hi hnd => h1 i hi (fun j hij hjl => hnd j hjl hij), h2⟩

/-- Witness for C9: verification against a wrong root still records the
first leaf digest in the returned map. -/
theorem claimC9_witness :
    (VerifyMultiProofUsing [[1], [2]] false unsortedMpEx [9] concatHash).2
        (unsortedMpEx.Indices.getD 0 0 + unsortedMpEx.Values) =
      some (leafDigest concatHash false (([[1], [2]] : List Bytes).getD 0 [])
        (unsortedMpEx.Indices.getD 0 0)) :=
  (claimC9 concatHash false [[1], [2]] unsortedMpEx [9]).1 0 (by decide)
    (by decide)

/-- Claim C10 (confirmed).  For a present value, `GenerateProof` with a
height strictly greater than `⌈log₂ n⌉` computes a negative proof length
and panics instead of returning an error, and with height exactly
`⌈log₂ n⌉` it returns a proof whose hash list is empty. -/
theorem claimC10 (data : List Bytes) (salt sorted : Bool)
    (hh : HashTy) (t : MerkleTree) (ht : NewTree data salt sorted hh = .ok t)
    (v : Bytes) (hv : v ∈ t.Data) :
    (∀ hgt, clog2 t.Data.length < hgt → GenerateProof t v hgt = .panic) ∧
      (∃ p, GenerateProof t v (clog2 t.Data.length) = .ok p ∧ p.Hashes = []) :=
  generateProof_heights data salt sorted hh t ht v hv

/-- Witness for C10: height 3 on the four-value tree panics. -/
theorem claimC10_witness :
    GenerateProof unsortedTreeEx [1] 3 = .panic :=
  (claimC10 [[1], [2], [3], [4]] false false concatHash unsortedTreeEx rfl [1]
    (by decide)).1 3 (by decide)
